import Mathlib

/-! # url-counter: the URL automaton, the stream scanner and the report

A shallow embedding of `src/main.cpp`, followed by the properties proved of it.

* A C++ `char` is a Lean `Char` and a `std::string` is a `List Char`. Every
  comparison of the source is against an ASCII literal, so a character outside
  ASCII fails all of them in the source and in the model alike.
* `count_t` (`unsigned long long`) is `Nat`. One automaton is created per
  character read and each automaton is counted at most once, so a counter never
  exceeds the number of characters read.
* The `int` line counter of `printStats` is a number up to `INT_MAX`; the
  increment that would pass `INT_MAX` has no defined result.
* A `std::map<std::string, count_t>` is the list of its entries in iteration
  order, that is by ascending key; a `std::multimap` with `std::greater` is the
  list of its entries in iteration order.
* `throw std::invalid_argument` is the result `Except.error`.
-/

namespace UrlCounter

/-! ## The automaton (`URLFiniteStateMachine`) -/

/-- The states of the automaton, `URLFiniteStateMachine::State`. -/
inductive State where
  | init
  | prefix_h
  | prefix_t_1
  | prefix_t_2
  | prefix_p
  | prefix_s
  | prefix_colon
  | prefix_slash_1
  | prefis_slash_2
  | domain_content
  | path_slash
  | path_content
  | error
  | success
  deriving DecidableEq, Repr

/-- The automaton object: `currentState`, `domain`, `path`. -/
structure URLFiniteStateMachine where
  currentState : State
  domain : List Char
  path : List Char
  deriving DecidableEq, Repr

/-- The function `isAlpha` of the source. -/
def isAlpha (ch : Char) : Bool :=
  ('a' ≤ ch && ch ≤ 'z') || ('A' ≤ ch && ch ≤ 'Z')

/-- The function `isNumeric` of the source. -/
def isNumeric (ch : Char) : Bool :=
  '0' ≤ ch && ch ≤ '9'

/-- The function `isDomainContent` of the source. -/
def isDomainContent (ch : Char) : Bool :=
  isAlpha ch || isNumeric ch || '.' == ch || '-' == ch

/-- The function `isPathContent` of the source. -/
def isPathContent (ch : Char) : Bool :=
  isAlpha ch || isNumeric ch || '.' == ch || ',' == ch || '/' == ch || '+' == ch || '_' == ch

/-- The library call `std::tolower(ch, std::locale())`. The program never
replaces the global locale, so this is the classic locale: the letters `A`..`Z`
go to `a`..`z` and every other character is unchanged. -/
def tolower (ch : Char) : Char :=
  if 'A' ≤ ch ∧ ch ≤ 'Z' then Char.ofNat (ch.toNat + 32) else ch

namespace URLFiniteStateMachine

/-- The constructor: state `init`, empty buffers. -/
def fresh : URLFiniteStateMachine :=
  { currentState := State.init, domain := [], path := [] }

/-- The method `addToDomain`: push the lowercased character on `domain`. -/
def addToDomain (m : URLFiniteStateMachine) (ch : Char) : URLFiniteStateMachine :=
  { m with domain := m.domain ++ [tolower ch] }

/-- The method `consume` of the automaton: one transition, or the exception of
the two terminal states. -/
def consume (m : URLFiniteStateMachine) (ch : Char) : Except String URLFiniteStateMachine :=
  match m.currentState with
  | State.init =>
    if 'h' = ch then .ok { m with currentState := State.prefix_h }
    else .ok { m with currentState := State.error }
  | State.prefix_h =>
    if 't' = ch then .ok { m with currentState := State.prefix_t_1 }
    else .ok { m with currentState := State.error }
  | State.prefix_t_1 =>
    if 't' = ch then .ok { m with currentState := State.prefix_t_2 }
    else .ok { m with currentState := State.error }
  | State.prefix_t_2 =>
    if 'p' = ch then .ok { m with currentState := State.prefix_p }
    else .ok { m with currentState := State.error }
  | State.prefix_p =>
    if 's' = ch then .ok { m with currentState := State.prefix_s }
    else if ':' = ch then .ok { m with currentState := State.prefix_colon }
    else .ok { m with currentState := State.error }
  | State.prefix_s =>
    if ':' = ch then .ok { m with currentState := State.prefix_colon }
    else .ok { m with currentState := State.error }
  | State.prefix_colon =>
    if '/' = ch then .ok { m with currentState := State.prefix_slash_1 }
    else .ok { m with currentState := State.error }
  | State.prefix_slash_1 =>
    if '/' = ch then .ok { m with currentState := State.prefis_slash_2 }
    else .ok { m with currentState := State.error }
  | State.prefis_slash_2 =>
    if isDomainContent ch then
      .ok (addToDomain { m with currentState := State.domain_content } ch)
    else .ok { m with currentState := State.error }
  | State.domain_content =>
    if isDomainContent ch then
      .ok (addToDomain { m with currentState := State.domain_content } ch)
    else if '/' = ch then
      .ok { m with currentState := State.path_slash, path := m.path ++ [ch] }
    else .ok { m with currentState := State.success, path := m.path ++ ['/'] }
  | State.path_slash =>
    if isPathContent ch then
      .ok { m with currentState := State.path_content, path := m.path ++ [ch] }
    else .ok { m with currentState := State.success }
  | State.path_content =>
    if isPathContent ch then
      .ok { m with currentState := State.path_content, path := m.path ++ [ch] }
    else .ok { m with currentState := State.success }
  | State.error => .error "FSM already in error state"
  | State.success => .error "FSM already in success state"

/-- The method `takeDomain`: the accumulated domain buffer. -/
def takeDomain (m : URLFiniteStateMachine) : List Char := m.domain

/-- The method `takePath`: the accumulated path buffer. -/
def takePath (m : URLFiniteStateMachine) : List Char := m.path

/-- The method `isSuccess`. -/
def isSuccess (m : URLFiniteStateMachine) : Bool :=
  decide (State.success = m.currentState)

/-- The method `isError`. -/
def isError (m : URLFiniteStateMachine) : Bool :=
  decide (State.error = m.currentState)

/-- Feeding the characters of a string one by one to an automaton. -/
def feed (m : URLFiniteStateMachine) : List Char → Except String URLFiniteStateMachine
  | [] => .ok m
  | ch :: rest =>
    match m.consume ch with
    | .error e => .error e
    | .ok m' => feed m' rest

end URLFiniteStateMachine

/-! ## The count maps (`std::map<std::string, count_t>`) -/

/-- The order of `std::string`: lexicographic on the character codes, a proper
prefix before its extensions. -/
def strLess : List Char → List Char → Bool
  | [], [] => false
  | [], _ :: _ => true
  | _ :: _, [] => false
  | a :: as, b :: bs =>
    if a.toNat < b.toNat then true
    else if b.toNat < a.toNat then false
    else strLess as bs

/-- A `std::map<std::string, count_t>`: its entries in iteration order. -/
abbrev CountMap := List (List Char × Nat)

namespace CountMap

/-- The lookup `find` of the map: the count stored for a key, if any. -/
def find (m : CountMap) (k : List Char) : Option Nat :=
  match m with
  | [] => none
  | e :: rest => if e.1 = k then some e.2 else find rest k

/-- Insertion of a new entry at its place in the key order. -/
def insertSorted (k : List Char) (v : Nat) : CountMap → CountMap
  | [] => [(k, v)]
  | e :: rest => if strLess k e.1 then (k, v) :: e :: rest else e :: insertSorted k v rest

/-- The call `m[k]`: an absent key is first inserted with the count 0. -/
def subscript (m : CountMap) (k : List Char) : CountMap :=
  match find m k with
  | some _ => m
  | none => insertSorted k 0 m

/-- Adding `n` to the count stored for `k`. -/
def addAt (m : CountMap) (k : List Char) (n : Nat) : CountMap :=
  m.map (fun e => if e.1 = k then (e.1, e.2 + n) else e)

/-- The statement `m[k] += 1`. -/
def increment (m : CountMap) (k : List Char) : CountMap :=
  addAt (subscript m k) k 1

/-- The sum of all the counts of a map. -/
def total (m : CountMap) : Nat := (m.map Prod.snd).sum

end CountMap

/-! ## The scanner (`URLParser`) -/

/-- The scanner object: the three counters and the live automata. -/
structure URLParser where
  urlCounter : Nat
  countByDomain : CountMap
  countByPath : CountMap
  parsers : List URLFiniteStateMachine
  deriving DecidableEq, Repr

namespace URLParser

/-- The constructor: zero counter, empty maps, no automaton. -/
def fresh : URLParser :=
  { urlCounter := 0, countByDomain := [], countByPath := [], parsers := [] }

/-- The `for` loop of `URLParser::consume`. The first argument is the part of the
vector from the iterator on; `p.parsers` is the part before the iterator, that
is the automata that were kept. -/
def consumeLoop (ch : Char) : List URLFiniteStateMachine → URLParser → Except String URLParser
  | [], p => .ok p
  | m :: rest, p =>
    match m.consume ch with
    | .error e => .error e
    | .ok m' =>
      if m'.isSuccess then
        consumeLoop ch rest
          { p with
            urlCounter := p.urlCounter + 1
            countByDomain := p.countByDomain.increment m'.takeDomain
            countByPath := p.countByPath.increment m'.takePath }
      else if m'.isError then
        consumeLoop ch rest p
      else
        consumeLoop ch rest { p with parsers := p.parsers ++ [m'] }

/-- The method `URLParser::consume`: push a new automaton, then run the loop
over all of them. -/
def consume (p : URLParser) (ch : Char) : Except String URLParser :=
  consumeLoop ch (p.parsers ++ [URLFiniteStateMachine.fresh]) { p with parsers := [] }

/-- The reading loop of `main`: `while(in.get(ch)) urlParser.consume(ch)`. -/
def consumeAll (p : URLParser) : List Char → Except String URLParser
  | [] => .ok p
  | ch :: rest =>
    match p.consume ch with
    | .error e => .error e
    | .ok p' => consumeAll p' rest

end URLParser

/-- The scan of `main`: a new scanner reads the whole input and then the
newline that finishes the automata still running. -/
def scan (s : List Char) : Except String URLParser :=
  match URLParser.fresh.consumeAll s with
  | .error e => .error e
  | .ok p => p.consume '\n'

/-! ## The report (`revertIndex`, `printStats`) -/

/-- A `std::multimap<count_t, std::string, std::greater<count_t>>`: its entries
in iteration order. -/
abbrev CountIndex := List (Nat × List Char)

/-- The call `result.emplace(c, k)`: the entry goes after the entries whose count
is not smaller (`std::greater` order, a new entry after its equals). -/
def multimapEmplace (result : CountIndex) (c : Nat) (k : List Char) : CountIndex :=
  match result with
  | [] => [(c, k)]
  | e :: rest => if c > e.1 then (c, k) :: e :: rest else e :: multimapEmplace rest c k

/-- The loop of `revertIndex`: the first entry of the map is copied to the result
and erased from the map. Returns the result and what is left of the map. -/
def revertIndexLoop : CountMap → CountIndex → CountIndex × CountMap
  | [], result => (result, [])
  | e :: rest, result => revertIndexLoop rest (multimapEmplace result e.2 e.1)

/-- The function `revertIndex`: the index by count, and the argument map as the
caller finds it afterwards. -/
def revertIndex (countByStr : CountMap) : CountIndex × CountMap :=
  revertIndexLoop countByStr []

/-- The largest value of an `int`, the type of the line counter of `printStats`
(32 bits, two's complement). -/
def INT_MAX : Nat := 2147483647

/-- The loop of `printStats`: the entries written, `current` being the number of
the next line. `current` is an `int`: after a line is written `++current` is
computed, and at `INT_MAX` that is a signed overflow, which the language leaves
undefined; the result is then `none`. In the comparison with `topCount` the
positive `current` keeps its value. -/
def printLoop (topCount : Nat) : Nat → CountIndex → Option CountIndex
  | _, [] => some []
  | current, e :: rest =>
    if current > topCount then some []
    else if current = INT_MAX then none
    else (printLoop topCount (current + 1) rest).map (fun written => e :: written)

/-- The function `printStats`: the (count, key) lines written after the header
(`none` when the line counter overflows), and the argument map as the caller
finds it afterwards. -/
def printStats (topCount : Nat) (countByValue : CountMap) : Option CountIndex × CountMap :=
  (printLoop topCount 1 (revertIndex countByValue).1, (revertIndex countByValue).2)

/-- The `w` binary digits of `k`, most significant first. -/
def binaryKey : Nat → Nat → List Char
  | 0, _ => []
  | w + 1, k => (if k / 2 ^ w = 0 then '0' else '1') :: binaryKey w (k % 2 ^ w)

/-- A map with `INT_MAX + 1` entries: the keys are the numbers below `2^31`
written with 31 binary digits, each with the count 1. It is the `countByDomain`
of an input that holds, for each of these keys, `http://`, the key and a blank. -/
def overflowMap : CountMap :=
  (List.range (INT_MAX + 1)).map (fun k => (binaryKey 31 k, 1))

/-! ## The reference description of a match

The grammar of a URL occurrence, written on the text: a scheme prefix, the
longest run of domain characters, and the path. The character classes and the
lowercasing of this description are given by the alphabets themselves, not by
the functions of the source. -/

/-- The ASCII lowercase letters. -/
def asciiLowerLetters : List Char := "abcdefghijklmnopqrstuvwxyz".toList

/-- The ASCII uppercase letters, in the same order. -/
def asciiUpperLetters : List Char := "ABCDEFGHIJKLMNOPQRSTUVWXYZ".toList

/-- The ASCII digits. -/
def asciiDigits : List Char := "0123456789".toList

/-- A domain character: an ASCII letter, a digit, `.` or `-`. -/
def isDomainChar (c : Char) : Bool :=
  decide (c ∈ asciiLowerLetters ++ asciiUpperLetters ++ asciiDigits ++ ['.', '-'])

/-- A path character: an ASCII letter, a digit, `.`, `,`, `/`, `+` or `_`. -/
def isPathChar (c : Char) : Bool :=
  decide (c ∈ asciiLowerLetters ++ asciiUpperLetters ++ asciiDigits ++ ['.', ',', '/', '+', '_'])

/-- ASCII lowercasing: an uppercase letter goes to the lowercase letter at the
same place of the alphabet, every other character is unchanged. -/
def asciiLowercase (c : Char) : Char :=
  ((asciiUpperLetters.zip asciiLowerLetters).lookup c).getD c

/-- The text after the scheme prefix `http://` or `https://`, if the text starts
with one of them. -/
def afterScheme (t : List Char) : Option (List Char) :=
  if "http://".toList.isPrefixOf t then some (t.drop 7)
  else if "https://".toList.isPrefixOf t then some (t.drop 8)
  else none

/-- The path of a match, from the text that follows the run of domain characters:
`/` and the longest run of path characters when that text starts with `/`, and
`/` alone otherwise. -/
def pathOf : List Char → List Char
  | '/' :: q => '/' :: q.takeWhile isPathChar
  | _ => ['/']

/-- The URL that starts at the beginning of the text `t`, as the pair of its
domain (lowercased) and its path; `none` when no URL starts there. -/
def matchUrl (t : List Char) : Option (List Char × List Char) :=
  match afterScheme t with
  | none => none
  | some r =>
    if (r.takeWhile isDomainChar).isEmpty then none
    else some ((r.takeWhile isDomainChar).map asciiLowercase, pathOf (r.dropWhile isDomainChar))

/-- The text starts with a domain character. -/
def startsWithDomainChar : List Char → Bool
  | [] => false
  | c :: _ => isDomainChar c

/-- The text continues with `http://` or `https://` immediately followed by at
least one domain character. -/
def startsUrl (t : List Char) : Bool :=
  ("http://".toList.isPrefixOf t && startsWithDomainChar (t.drop 7))
    || ("https://".toList.isPrefixOf t && startsWithDomainChar (t.drop 8))

/-- The number of offsets `i` of `s` at which a URL starts. -/
def urlStartCount (s : List Char) : Nat :=
  (List.range s.length).countP (fun i => startsUrl (s.drop i))

/-- The number of offsets of `s` at which a URL with domain `d` starts. -/
def domainStartCount (s : List Char) (d : List Char) : Nat :=
  (List.range s.length).countP (fun i => decide ((matchUrl (s.drop i)).map Prod.fst = some d))

/-- The number of offsets of `s` at which a URL with path `q` starts. -/
def pathStartCount (s : List Char) (q : List Char) : Nat :=
  (List.range s.length).countP (fun i => decide ((matchUrl (s.drop i)).map Prod.snd = some q))

/-- The count that a map of occurrences must store for a key seen `n` times:
no entry for 0. -/
def expectedEntry (n : Nat) : Option Nat :=
  if n = 0 then none else some n

/-! ## Single automaton: auxiliary notions -/

namespace URLFiniteStateMachine

/-- An automaton that is in neither terminal state. -/
def isLive (m : URLFiniteStateMachine) : Bool :=
  !m.isSuccess && !m.isError

/-- The automaton after one more character (unchanged when `consume` throws). -/
def advance (m : URLFiniteStateMachine) (ch : Char) : URLFiniteStateMachine :=
  match m.consume ch with
  | .ok m' => m'
  | .error _ => m

/-- The match that an automaton reports while reading `w`: the buffers at the
moment it reaches `success`, or `none` if it reaches `error` or is still running
at the end of `w`. -/
def outcome (m : URLFiniteStateMachine) : List Char → Option (List Char × List Char)
  | [] => none
  | ch :: w =>
    if (m.advance ch).isSuccess then some ((m.advance ch).takeDomain, (m.advance ch).takePath)
    else if (m.advance ch).isError then none
    else outcome (m.advance ch) w

/-- The states in which a URL has been read up to a possible end:
`domain_content`, `path_slash`, `path_content`. -/
def isAcceptable (m : URLFiniteStateMachine) : Bool :=
  decide (m.currentState = State.domain_content) || decide (m.currentState = State.path_slash)
    || decide (m.currentState = State.path_content)

/-- The states of the scheme prefix, from `init` to `prefis_slash_2`. -/
def inPrefix (m : URLFiniteStateMachine) : Bool :=
  !m.isSuccess && !m.isError && !m.isAcceptable

end URLFiniteStateMachine

/-- Whether the match reported by an automaton on `w`, if any, satisfies `g`. -/
def reports (g : List Char × List Char → Bool) (m : URLFiniteStateMachine) (w : List Char) : Bool :=
  match m.outcome w with
  | some r => g r
  | none => false

/-- Whether the URL starting at the beginning of `t`, if any, satisfies `g`. -/
def urlSatisfies (g : List Char × List Char → Bool) (t : List Char) : Bool :=
  match matchUrl t with
  | some r => g r
  | none => false

namespace CountMap

/-- The count stored for a key, 0 when the key is absent. -/
def count (m : CountMap) (k : List Char) : Nat := (find m k).getD 0

/-- The keys of a map, in iteration order. -/
def keys (m : CountMap) : List (List Char) := m.map Prod.fst

/-- The representation invariant of a `std::map`: the keys are strictly
ascending. -/
def WellFormed (m : CountMap) : Prop := (keys m).Pairwise (fun a b => strLess a b = true)

/-- Every stored count is at least 1. -/
def Positive (m : CountMap) : Prop := ∀ e ∈ m, 0 < e.2

end CountMap

/-- The invariant of the three counters of a scanner: both maps are well formed
and store positive counts, and the total counter is the sum of each map. -/
def URLParser.Consistent (p : URLParser) : Prop :=
  p.countByDomain.WellFormed ∧ p.countByPath.WellFormed
    ∧ p.countByDomain.Positive ∧ p.countByPath.Positive
    ∧ p.urlCounter = p.countByDomain.total ∧ p.urlCounter = p.countByPath.total

/-- The order of the report: larger count first, and for equal counts the
smaller key first. -/
def reportBefore (a b : Nat × List Char) : Prop :=
  a.1 > b.1 ∨ (a.1 = b.1 ∧ strLess a.2 b.2 = true)

instance (m : CountMap) : Decidable m.WellFormed :=
  inferInstanceAs (Decidable ((CountMap.keys m).Pairwise (fun a b => strLess a b = true)))

instance (m : CountMap) : Decidable m.Positive :=
  inferInstanceAs (Decidable (∀ e ∈ m, 0 < e.2))

instance (a b : Nat × List Char) : Decidable (reportBefore a b) :=
  inferInstanceAs (Decidable (a.1 > b.1 ∨ (a.1 = b.1 ∧ strLess a.2 b.2 = true)))

/-! ## Auxiliary notions for the later properties -/

/-- The twelve states other than `error` and `success`, in the order of the
declaration of `State`. -/
def nonTerminalStates : List State :=
  [State.init, State.prefix_h, State.prefix_t_1, State.prefix_t_2, State.prefix_p,
   State.prefix_s, State.prefix_colon, State.prefix_slash_1, State.prefis_slash_2,
   State.domain_content, State.path_slash, State.path_content]


/-- No entry of `a` is lost or lowered in `b`: every key of `a` is a key of `b`
with a count at least as large. -/
def CountMap.Below (a b : CountMap) : Prop :=
  ∀ k v, a.find k = some v → ∃ v', b.find k = some v' ∧ v ≤ v'

/-- The counters of `p'` are those of `p` or larger, entry by entry. -/
def URLParser.CountersBelow (p p' : URLParser) : Prop :=
  p.urlCounter ≤ p'.urlCounter ∧ p.countByDomain.Below p'.countByDomain
    ∧ p.countByPath.Below p'.countByPath


/-- The state that `consume` reaches from the state `st` on the character `ch`
(the transition does not depend on the buffers). -/
def nextState (st : State) (ch : Char) : State :=
  (URLFiniteStateMachine.advance { currentState := st, domain := [], path := [] } ch).currentState

/-- The states of the scheme prefix after its first character: `prefix_h` to
`prefis_slash_2`. -/
def State.isSchemePrefix (st : State) : Bool :=
  decide (st ∈ [State.prefix_h, State.prefix_t_1, State.prefix_t_2, State.prefix_p,
    State.prefix_s, State.prefix_colon, State.prefix_slash_1, State.prefis_slash_2])

/-- The states `prefix_h` to `prefix_s`, before the colon of the scheme. -/
def State.isBeforeColon (st : State) : Bool :=
  decide (st ∈ [State.prefix_h, State.prefix_t_1, State.prefix_t_2, State.prefix_p,
    State.prefix_s])

/-- The states `domain_content`, `path_slash`, `path_content`. -/
def State.isDomainOrPath (st : State) : Bool :=
  decide (st ∈ [State.domain_content, State.path_slash, State.path_content])

/-- The states `error` and `success`. -/
def State.isTerminal (st : State) : Bool :=
  decide (st = State.error) || decide (st = State.success)

/-- The possible lists of states of the live automata: nothing, one automaton in
the scheme prefix, one automaton in the domain or the path, or one in the domain
or the path followed by one that has not reached the colon yet. -/
def liveShape : List State → Bool
  | [] => true
  | [a] => a.isSchemePrefix || a.isDomainOrPath
  | [a, b] => a.isDomainOrPath && b.isBeforeColon
  | _ => false


/-- A character allowed in a key of `countByDomain`: an ASCII lowercase letter,
a digit, `.` or `-`. -/
def isDomainKeyChar (c : Char) : Bool :=
  ('a' ≤ c && c ≤ 'z') || ('0' ≤ c && c ≤ '9') || c == '.' || c == '-'

/-- A key of `countByDomain`: non-empty, made of lowercase letters, digits, `.`
and `-`. -/
def isDomainKey (k : List Char) : Bool :=
  !k.isEmpty && k.all isDomainKeyChar

/-- A character allowed in a key of `countByPath`: an ASCII letter, a digit, `.`,
`,`, `/`, `+` or `_`. -/
def isPathKeyChar (c : Char) : Bool :=
  ('a' ≤ c && c ≤ 'z') || ('A' ≤ c && c ≤ 'Z') || ('0' ≤ c && c ≤ '9')
    || c == '.' || c == ',' || c == '/' || c == '+' || c == '_'

/-- A key of `countByPath`: it begins with `/` and is made of path characters. -/
def isPathKey (k : List Char) : Bool :=
  k.head? == some '/' && k.all isPathKeyChar

/-- The buffers of an automaton fit its state: both empty before the domain, a
domain key and an empty path in `domain_content`, a domain key and a path key
in the path states and in `success`. -/
def URLFiniteStateMachine.buffersOk (m : URLFiniteStateMachine) : Bool :=
  match m.currentState with
  | State.domain_content => isDomainKey m.domain && m.path.isEmpty
  | State.path_slash => isDomainKey m.domain && isPathKey m.path
  | State.path_content => isDomainKey m.domain && isPathKey m.path
  | State.success => isDomainKey m.domain && isPathKey m.path
  | _ => m.domain.isEmpty && m.path.isEmpty

/-- Every key of both maps of a scanner has the shape of a recorded domain,
respectively of a recorded path. -/
def URLParser.KeysOk (p : URLParser) : Prop :=
  (∀ k ∈ p.countByDomain.keys, isDomainKey k = true)
    ∧ (∀ k ∈ p.countByPath.keys, isPathKey k = true)


/-! ## One independent automaton per start offset

The description of the scanner as independent runs: for the start offset `j`
and the last position `i`, a new automaton is fed the characters `s[j..i]`. -/

/-- The characters `s[j..i]`, both ends included. -/
def segment (s : List Char) (j i : Nat) : List Char :=
  (s.take (i + 1)).drop j

/-- The independent run for the start offset `j` up to the position `i`: a new
automaton fed `s[j..i]`. -/
def independentRun (s : List Char) (j i : Nat) : Except String URLFiniteStateMachine :=
  URLFiniteStateMachine.fresh.feed (segment s j i)

/-- The automaton of a run that is still in a non-terminal state. -/
def stillRunning : Except String URLFiniteStateMachine → Option URLFiniteStateMachine
  | .ok m => if m.isLive then some m else none
  | .error _ => none

/-- The match of a run that is in `success`: its domain and its path. -/
def succeeded : Except String URLFiniteStateMachine → Option (List Char × List Char)
  | .ok m => if m.isSuccess then some (m.takeDomain, m.takePath) else none
  | .error _ => none

/-- The automata of the independent runs that are still running at the position
`i`, in increasing order of the start offset. -/
def independentLive (s : List Char) (i : Nat) : List URLFiniteStateMachine :=
  (List.range (i + 1)).filterMap (fun j => stillRunning (independentRun s j i))

/-- The match of the independent run for the start offset `j`, if that run
reached `success` at some position `k` with `j ≤ k ≤ i`. -/
def independentMatch (s : List Char) (j i : Nat) : Option (List Char × List Char) :=
  (List.range' j (i + 1 - j)).findSome? (fun k => succeeded (independentRun s j k))

/-- The number of start offsets `j ≤ i` whose independent run reached `success`
at a position `≤ i`. -/
def independentTotal (s : List Char) (i : Nat) : Nat :=
  (List.range (i + 1)).countP (fun j => (independentMatch s j i).isSome)

/-- The number of those start offsets whose match has the domain `d`. -/
def independentDomainCount (s : List Char) (i : Nat) (d : List Char) : Nat :=
  (List.range (i + 1)).countP
    (fun j => decide ((independentMatch s j i).map Prod.fst = some d))

/-- The number of those start offsets whose match has the path `q`. -/
def independentPathCount (s : List Char) (i : Nat) (q : List Char) : Nat :=
  (List.range (i + 1)).countP
    (fun j => decide ((independentMatch s j i).map Prod.snd = some q))


/-! # Theorems -/

/-! ## The classifiers of the source and the character classes of the description -/

theorem char_cases (P : Char → Prop) (hlow : ∀ n, n < 128 → P (Char.ofNat n))
    (hhigh : ∀ c : Char, 128 ≤ c.toNat → P c) (c : Char) : P c := by
  by_cases h : c.toNat < 128
  · have := hlow c.toNat h
    rwa [Char.ofNat_toNat] at this
  · exact hhigh c (by omega)

theorem not_le_of_high (c b : Char) (hb : b.toNat < 128) (h : 128 ≤ c.toNat) : ¬ c ≤ b := by
  intro hle
  have : c.toNat ≤ b.toNat := hle
  omega

theorem ne_of_high (c b : Char) (hb : b.toNat < 128) (h : 128 ≤ c.toNat) : ¬ b = c := by
  intro he
  rw [← he] at h
  omega

theorem not_mem_of_high (c : Char) (l : List Char) (hl : ∀ x ∈ l, x.toNat < 128)
    (h : 128 ≤ c.toNat) : c ∉ l := by
  intro hm
  have := hl c hm
  omega

set_option maxRecDepth 100000 in
theorem isDomainContent_eq_isDomainChar (c : Char) : isDomainContent c = isDomainChar c := by
  refine char_cases (fun c => isDomainContent c = isDomainChar c) (by decide) ?_ c
  intro c h
  have h1 : isDomainContent c = false := by
    simp [isDomainContent, isAlpha, isNumeric, not_le_of_high c 'z' (by decide) h,
      not_le_of_high c 'Z' (by decide) h, not_le_of_high c '9' (by decide) h,
      ne_of_high c '.' (by decide) h, ne_of_high c '-' (by decide) h]
  have h2 : isDomainChar c = false := by
    unfold isDomainChar
    exact decide_eq_false (not_mem_of_high c _ (by decide) h)
  rw [h1, h2]

set_option maxRecDepth 100000 in
theorem isPathContent_eq_isPathChar (c : Char) : isPathContent c = isPathChar c := by
  refine char_cases (fun c => isPathContent c = isPathChar c) (by decide) ?_ c
  intro c h
  have h1 : isPathContent c = false := by
    simp [isPathContent, isAlpha, isNumeric, not_le_of_high c 'z' (by decide) h,
      not_le_of_high c 'Z' (by decide) h, not_le_of_high c '9' (by decide) h,
      ne_of_high c '.' (by decide) h, ne_of_high c ',' (by decide) h,
      ne_of_high c '/' (by decide) h, ne_of_high c '+' (by decide) h,
      ne_of_high c '_' (by decide) h]
  have h2 : isPathChar c = false := by
    unfold isPathChar
    exact decide_eq_false (not_mem_of_high c _ (by decide) h)
  rw [h1, h2]

set_option maxRecDepth 100000 in
theorem tolower_eq_asciiLowercase (c : Char) : tolower c = asciiLowercase c := by
  refine char_cases (fun c => tolower c = asciiLowercase c) (by decide) ?_ c
  intro c h
  have h1 : tolower c = c := by
    simp [tolower, not_le_of_high c 'Z' (by decide) h]
  have h2 : asciiLowercase c = c := by
    unfold asciiLowercase
    have hnone : (asciiUpperLetters.zip asciiLowerLetters).lookup c = none := by
      rw [List.lookup_eq_none_iff]
      intro p hp
      have hlow : ∀ x ∈ asciiUpperLetters.zip asciiLowerLetters, x.1.toNat < 128 := by decide
      have := hlow p hp
      simp only [bne_iff_ne, ne_eq]
      intro he
      rw [he] at h
      omega
    rw [hnone]
    rfl
  rw [h1, h2]

theorem isDomainChar_eq : isDomainChar = isDomainContent :=
  funext fun c => (isDomainContent_eq_isDomainChar c).symm

theorem isPathChar_eq : isPathChar = isPathContent :=
  funext fun c => (isPathContent_eq_isPathChar c).symm

theorem asciiLowercase_eq : asciiLowercase = tolower :=
  funext fun c => (tolower_eq_asciiLowercase c).symm


theorem isDomainContent_newline : isDomainContent '\n' = false := by decide
theorem isPathContent_newline : isPathContent '\n' = false := by decide
theorem isDomainContent_slash : isDomainContent '/' = false := by decide
theorem isDomainContent_colon : isDomainContent ':' = false := by decide

namespace URLFiniteStateMachine

theorem schemeHttp_toList : "http://".toList = ['h', 't', 't', 'p', ':', '/', '/'] := rfl
theorem schemeHttps_toList : "https://".toList = ['h', 't', 't', 'p', 's', ':', '/', '/'] := rfl

theorem consume_of_isLive (m : URLFiniteStateMachine) (ch : Char) (h : m.isLive = true) :
    m.consume ch = .ok (m.advance ch) := by
  obtain ⟨st, d, q⟩ := m
  cases st <;> simp [isLive, isSuccess, isError] at h <;>
    simp only [advance, consume] <;> split_ifs <;> rfl

theorem advance_domain_content (d q : List Char) (ch : Char) :
    advance { currentState := State.domain_content, domain := d, path := q } ch =
      if isDomainContent ch = true then
        { currentState := State.domain_content, domain := d ++ [tolower ch], path := q }
      else if '/' = ch then
        { currentState := State.path_slash, domain := d, path := q ++ [ch] }
      else { currentState := State.success, domain := d, path := q ++ ['/'] } := by
  simp only [advance, consume, addToDomain]; split_ifs <;> rfl

theorem advance_path_slash (d q : List Char) (ch : Char) :
    advance { currentState := State.path_slash, domain := d, path := q } ch =
      if isPathContent ch = true then
        { currentState := State.path_content, domain := d, path := q ++ [ch] }
      else { currentState := State.success, domain := d, path := q } := by
  simp only [advance, consume]; split_ifs <;> rfl

theorem advance_path_content (d q : List Char) (ch : Char) :
    advance { currentState := State.path_content, domain := d, path := q } ch =
      if isPathContent ch = true then
        { currentState := State.path_content, domain := d, path := q ++ [ch] }
      else { currentState := State.success, domain := d, path := q } := by
  simp only [advance, consume]; split_ifs <;> rfl

theorem outcome_path (st : State) (hst : st = State.path_slash ∨ st = State.path_content)
    (d : List Char) (q pth : List Char) :
    outcome { currentState := st, domain := d, path := pth } (q ++ ['\n'])
      = some (d, pth ++ q.takeWhile isPathContent) := by
  induction q generalizing st pth with
  | nil =>
    rcases hst with rfl | rfl <;>
      simp [outcome, advance_path_slash, advance_path_content, isPathContent_newline,
        isSuccess, takeDomain, takePath]
  | cons c q ih =>
    by_cases hc : isPathContent c = true
    · have := ih State.path_content (Or.inr rfl) (pth ++ [c])
      rcases hst with rfl | rfl <;>
        simp [outcome, advance_path_slash, advance_path_content, isSuccess, isError, hc, this,
          List.takeWhile_cons]
    · rcases hst with rfl | rfl <;>
        simp [outcome, advance_path_slash, advance_path_content, isSuccess, isError, hc,
          List.takeWhile_cons, takeDomain, takePath]

theorem pathOf_cons_of_ne (c : Char) (r : List Char) (h : ¬ '/' = c) : pathOf (c :: r) = ['/'] := by
  unfold pathOf
  split
  · rename_i q heq
    simp at heq
    exact absurd heq.1.symm h
  · rfl

theorem outcome_domain (d r : List Char) :
    outcome { currentState := State.domain_content, domain := d, path := [] } (r ++ ['\n'])
      = some (d ++ (r.takeWhile isDomainContent).map tolower,
          pathOf (r.dropWhile isDomainContent)) := by
  induction r generalizing d with
  | nil =>
    simp [outcome, advance_domain_content, isDomainContent_newline, isSuccess, takeDomain,
      takePath, pathOf]
  | cons c r ih =>
    by_cases hc : isDomainContent c = true
    · simp [outcome, advance_domain_content, isSuccess, isError, hc, ih, List.takeWhile_cons,
        List.dropWhile_cons]
    · by_cases hs : '/' = c
      · subst hs
        have := outcome_path State.path_slash (Or.inl rfl) d r ['/']
        simp [outcome, advance_domain_content, isSuccess, isError, hc, this,
          List.takeWhile_cons, List.dropWhile_cons, pathOf, isPathChar_eq]
      · simp [outcome, advance_domain_content, isSuccess, isError, hc, hs,
          List.takeWhile_cons, List.dropWhile_cons, takeDomain, takePath, pathOf_cons_of_ne]

/-- The match read after the scheme prefix: a non-empty run of domain characters
and the path. -/
theorem outcome_slash_2 (r : List Char) :
    outcome { currentState := State.prefis_slash_2, domain := [], path := [] } (r ++ ['\n'])
      = if (r.takeWhile isDomainContent).isEmpty then none
        else some ((r.takeWhile isDomainContent).map tolower,
          pathOf (r.dropWhile isDomainContent)) := by
  rcases r with _ | ⟨c, r⟩
  · simp [outcome, advance, consume, isDomainContent_newline, isSuccess, isError]
  · by_cases hc : isDomainContent c = true
    · have := outcome_domain [tolower c] r
      simp [outcome, advance, consume, addToDomain, isSuccess, isError, hc, this,
        List.takeWhile_cons, List.dropWhile_cons]
    · simp [outcome, advance, consume, isSuccess, isError, hc, List.takeWhile_cons]

theorem outcome_fresh (u : List Char) : outcome fresh (u ++ ['\n']) = matchUrl u := by
  unfold matchUrl afterScheme
  rw [schemeHttp_toList, schemeHttps_toList]
  simp only [isDomainChar_eq, asciiLowercase_eq]
  rcases u with _ | ⟨c1, u⟩
  · simp [outcome, advance, consume, fresh, isSuccess, isError]
  by_cases h1 : 'h' = c1
  swap
  · simp [outcome, advance, consume, fresh, isSuccess, isError, h1]
  subst h1
  rcases u with _ | ⟨c2, u⟩
  · simp [outcome, advance, consume, fresh, isSuccess, isError]
  by_cases h2 : 't' = c2
  swap
  · simp [outcome, advance, consume, fresh, isSuccess, isError, h2]
  subst h2
  rcases u with _ | ⟨c3, u⟩
  · simp [outcome, advance, consume, fresh, isSuccess, isError]
  by_cases h3 : 't' = c3
  swap
  · simp [outcome, advance, consume, fresh, isSuccess, isError, h3]
  subst h3
  rcases u with _ | ⟨c4, u⟩
  · simp [outcome, advance, consume, fresh, isSuccess, isError]
  by_cases h4 : 'p' = c4
  swap
  · simp [outcome, advance, consume, fresh, isSuccess, isError, h4]
  subst h4
  rcases u with _ | ⟨c5, u⟩
  · simp [outcome, advance, consume, fresh, isSuccess, isError]
  by_cases h5 : 's' = c5
  · subst h5
    rcases u with _ | ⟨c6, u⟩
    · simp [outcome, advance, consume, fresh, isSuccess, isError]
    by_cases h6 : ':' = c6
    swap
    · simp [outcome, advance, consume, fresh, isSuccess, isError, h6]
    subst h6
    rcases u with _ | ⟨c7, u⟩
    · simp [outcome, advance, consume, fresh, isSuccess, isError]
    by_cases h7 : '/' = c7
    swap
    · simp [outcome, advance, consume, fresh, isSuccess, isError, h7]
    subst h7
    rcases u with _ | ⟨c8, u⟩
    · simp [outcome, advance, consume, fresh, isSuccess, isError]
    by_cases h8 : '/' = c8
    swap
    · simp [outcome, advance, consume, fresh, isSuccess, isError, h8]
    subst h8
    have := outcome_slash_2 u
    simp [outcome, advance, consume, fresh, isSuccess, isError] at this ⊢
    exact this
  by_cases h5c : ':' = c5
  swap
  · simp [outcome, advance, consume, fresh, isSuccess, isError, h5, h5c]
  subst h5c
  rcases u with _ | ⟨c6, u⟩
  · simp [outcome, advance, consume, fresh, isSuccess, isError]
  by_cases h6 : '/' = c6
  swap
  · simp [outcome, advance, consume, fresh, isSuccess, isError, h6]
  subst h6
  rcases u with _ | ⟨c7, u⟩
  · simp [outcome, advance, consume, fresh, isSuccess, isError]
  by_cases h7 : '/' = c7
  swap
  · simp [outcome, advance, consume, fresh, isSuccess, isError, h7]
  subst h7
  have := outcome_slash_2 u
  simp [outcome, advance, consume, fresh, isSuccess, isError] at this ⊢
  exact this
end URLFiniteStateMachine
namespace URLParser

theorem consumeLoop_parsers (ch : Char) (ms : List URLFiniteStateMachine) (p p' : URLParser)
    (h : consumeLoop ch ms p = .ok p') :
    p'.parsers = p.parsers ++ (ms.map (fun m => m.advance ch)).filter
      URLFiniteStateMachine.isLive := by
  induction ms generalizing p with
  | nil => simp [consumeLoop] at h; simp [h]
  | cons m ms ih =>
    unfold consumeLoop at h
    cases hm : m.consume ch with
    | error e => simp [hm] at h
    | ok m' =>
      have hadv : m.advance ch = m' := by simp [URLFiniteStateMachine.advance, hm]
      simp only [hm] at h
      by_cases hs : m'.isSuccess = true
      · simp only [hs, if_true] at h
        have := ih _ h
        simp [this, hadv, URLFiniteStateMachine.isLive, hs]
      · by_cases he : m'.isError = true
        · simp only [hs, he, if_true] at h
          have := ih _ h
          simp [this, hadv, URLFiniteStateMachine.isLive, he]
        · simp only [hs, he] at h
          have := ih _ h
          simp [this, hadv, URLFiniteStateMachine.isLive, hs, he]

theorem consumeLoop_isOk (ch : Char) (ms : List URLFiniteStateMachine)
    (hlive : ∀ m ∈ ms, m.isLive = true) (p : URLParser) :
    ∃ p', consumeLoop ch ms p = .ok p' := by
  induction ms generalizing p with
  | nil => exact ⟨p, rfl⟩
  | cons m ms ih =>
    have hm := URLFiniteStateMachine.consume_of_isLive m ch (hlive m (by simp))
    have hrest : ∀ x ∈ ms, x.isLive = true := fun x hx => hlive x (by simp [hx])
    unfold consumeLoop
    simp only [hm]
    split_ifs
    · exact ih hrest _
    · exact ih hrest _
    · exact ih hrest _

end URLParser

namespace URLParser

theorem consumeLoop_tally (base : URLParser → Nat) (g : List Char × List Char → Bool)
    (hrec : ∀ (p : URLParser) (d q : List Char),
      base { p with
        urlCounter := p.urlCounter + 1
        countByDomain := p.countByDomain.increment d
        countByPath := p.countByPath.increment q } = base p + (if g (d, q) then 1 else 0))
    (hpar : ∀ (p : URLParser) (ps : List URLFiniteStateMachine),
      base { p with parsers := ps } = base p)
    (ch : Char) (ms : List URLFiniteStateMachine) (p p' : URLParser)
    (h : consumeLoop ch ms p = .ok p') :
    base p' = base p + (ms.map (fun m => m.advance ch)).countP
      (fun m' => m'.isSuccess && g (m'.takeDomain, m'.takePath)) := by
  induction ms generalizing p with
  | nil => simp [consumeLoop] at h; simp [h]
  | cons m ms ih =>
    unfold consumeLoop at h
    cases hm : m.consume ch with
    | error e => simp [hm] at h
    | ok m' =>
      have hadv : m.advance ch = m' := by simp [URLFiniteStateMachine.advance, hm]
      simp only [hm] at h
      by_cases hs : m'.isSuccess = true
      · simp only [hs, if_true] at h
        have := ih _ h
        rw [this, hrec]
        simp only [List.map_cons, List.countP_cons, hadv, hs, Bool.true_and]
        omega
      · by_cases he : m'.isError = true
        · simp only [hs, he, if_true] at h
          have := ih _ h
          rw [this]
          simp [List.countP_cons, hadv, hs]
        · simp only [hs, he] at h
          have := ih _ h
          rw [this, hpar]
          simp [List.countP_cons, hadv, hs]

theorem reports_cons (g : List Char × List Char → Bool) (m : URLFiniteStateMachine) (ch : Char)
    (w : List Char) :
    reports g m (ch :: w) =
      if (m.advance ch).isSuccess = true then g ((m.advance ch).takeDomain, (m.advance ch).takePath)
      else if (m.advance ch).isError = true then false
      else reports g (m.advance ch) w := by
  unfold reports
  simp only [URLFiniteStateMachine.outcome]
  split_ifs <;> rfl

theorem countP_advance (g : List Char × List Char → Bool) (ch : Char) (w : List Char)
    (ms : List URLFiniteStateMachine) :
    ((ms.map (fun m => m.advance ch)).filter URLFiniteStateMachine.isLive).countP
        (fun m => reports g m w)
      + (ms.map (fun m => m.advance ch)).countP
        (fun m' => m'.isSuccess && g (m'.takeDomain, m'.takePath))
      = ms.countP (fun m => reports g m (ch :: w)) := by
  induction ms with
  | nil => rfl
  | cons m ms ih =>
    simp only [List.map_cons, List.countP_cons, List.filter_cons, reports_cons g m ch w]
    rw [← ih]
    by_cases hs : (m.advance ch).isSuccess = true
    · simp only [URLFiniteStateMachine.isLive, hs]
      simp
      omega
    · by_cases he : (m.advance ch).isError = true
      · simp only [URLFiniteStateMachine.isLive, hs, he]
        simp
      · simp only [URLFiniteStateMachine.isLive, hs, he]
        simp [List.countP_cons]
        omega

theorem countP_offsets (f : List Char → Bool) (ch : Char) (w : List Char) :
    (List.range (ch :: w).length).countP (fun i => f ((ch :: w).drop i))
      = (if f (ch :: w) then 1 else 0) + (List.range w.length).countP (fun i => f (w.drop i)) := by
  rw [List.length_cons, List.range_succ_eq_map, List.countP_cons, List.countP_map]
  simp [Function.comp_def]
  omega

end URLParser

namespace URLParser

theorem consumeAll_isOk (w : List Char) (p : URLParser)
    (hlive : ∀ m ∈ p.parsers, m.isLive = true) :
    ∃ p', consumeAll p w = .ok p' ∧ ∀ m ∈ p'.parsers, m.isLive = true := by
  induction w generalizing p with
  | nil => exact ⟨p, rfl, hlive⟩
  | cons ch w ih =>
    have hall : ∀ m ∈ p.parsers ++ [URLFiniteStateMachine.fresh], m.isLive = true := by
      intro m hm
      rcases List.mem_append.1 hm with h | h
      · exact hlive m h
      · simp at h; subst h; rfl
    obtain ⟨p1, hp1⟩ := consumeLoop_isOk ch _ hall { p with parsers := [] }
    have hpar := consumeLoop_parsers ch _ _ _ hp1
    have hlive1 : ∀ m ∈ p1.parsers, m.isLive = true := by
      intro m hm
      rw [hpar] at hm
      simp only [List.nil_append, List.mem_filter] at hm
      exact hm.2
    obtain ⟨p', hp', hl'⟩ := ih p1 hlive1
    refine ⟨p', ?_, hl'⟩
    simp only [consumeAll, consume, hp1, hp']

theorem consumeAll_tally (base : URLParser → Nat) (g : List Char × List Char → Bool)
    (hrec : ∀ (p : URLParser) (d q : List Char),
      base { p with
        urlCounter := p.urlCounter + 1
        countByDomain := p.countByDomain.increment d
        countByPath := p.countByPath.increment q } = base p + (if g (d, q) then 1 else 0))
    (hpar : ∀ (p : URLParser) (ps : List URLFiniteStateMachine),
      base { p with parsers := ps } = base p)
    (w : List Char) (p p' : URLParser) (h : consumeAll p w = .ok p') :
    base p' = base p + p.parsers.countP (fun m => reports g m w)
      + (List.range w.length).countP
          (fun i => reports g URLFiniteStateMachine.fresh (w.drop i)) := by
  induction w generalizing p with
  | nil =>
    simp only [consumeAll, Except.ok.injEq] at h
    subst h
    simp [reports, URLFiniteStateMachine.outcome]
  | cons ch w ih =>
    unfold consumeAll at h
    cases hp1 : p.consume ch with
    | error e => simp [hp1] at h
    | ok p1 =>
      simp only [hp1] at h
      have h1 := ih p1 h
      unfold consume at hp1
      have hb := consumeLoop_tally base g hrec hpar ch _ _ _ hp1
      have hps := consumeLoop_parsers ch _ _ _ hp1
      have hadv := countP_advance g ch w (p.parsers ++ [URLFiniteStateMachine.fresh])
      rw [countP_offsets (fun t => reports g URLFiniteStateMachine.fresh t) ch w]
      rw [h1, hb, hpar, hps]
      simp only [List.nil_append]
      rw [List.countP_append] at hadv
      simp only [List.countP_cons, List.countP_nil] at hadv
      omega

theorem consumeAll_append (p : URLParser) (a b : List Char) :
    consumeAll p (a ++ b) =
      match consumeAll p a with
      | .error e => .error e
      | .ok p1 => consumeAll p1 b := by
  induction a generalizing p with
  | nil => rfl
  | cons ch a ih =>
    simp only [List.cons_append, consumeAll]
    cases p.consume ch with
    | error e => rfl
    | ok p1 => exact ih p1

end URLParser

theorem scan_eq_consumeAll (s : List Char) :
    scan s = URLParser.fresh.consumeAll (s ++ ['\n']) := by
  rw [URLParser.consumeAll_append]
  unfold scan
  cases URLParser.fresh.consumeAll s with
  | error e => rfl
  | ok p =>
    simp only [URLParser.consumeAll]
    cases p.consume '\n' <;> rfl

theorem countP_offsets_flush (g : List Char × List Char → Bool) (s : List Char) :
    (List.range (s ++ ['\n']).length).countP
        (fun i => reports g URLFiniteStateMachine.fresh ((s ++ ['\n']).drop i))
      = (List.range s.length).countP (fun i => urlSatisfies g (s.drop i)) := by
  induction s with
  | nil => simp [reports, URLFiniteStateMachine.outcome, URLFiniteStateMachine.advance,
      URLFiniteStateMachine.consume, URLFiniteStateMachine.fresh,
      URLFiniteStateMachine.isSuccess, URLFiniteStateMachine.isError]
  | cons c s ih =>
    rw [List.cons_append,
      URLParser.countP_offsets (fun t => reports g URLFiniteStateMachine.fresh t) c (s ++ ['\n']),
      URLParser.countP_offsets (fun t => urlSatisfies g t) c s, ih]
    congr 1
    have := URLFiniteStateMachine.outcome_fresh (c :: s)
    simp only [List.cons_append] at this
    simp only [reports, urlSatisfies, this]

namespace URLFiniteStateMachine

theorem advance_newline (m : URLFiniteStateMachine) (h : m.isLive = true) :
    (m.advance '\n').isLive = false ∧ (m.advance '\n').isSuccess = m.isAcceptable
      ∧ (m.advance '\n').isError = m.inPrefix := by
  obtain ⟨st, d, q⟩ := m
  cases st <;> simp [isLive, isSuccess, isError] at h <;>
    simp [advance, consume, isLive, isSuccess, isError, isAcceptable, inPrefix, addToDomain,
      isDomainContent_newline, isPathContent_newline]

end URLFiniteStateMachine

namespace URLParser

theorem consumeLoop_urlCounter (ch : Char) (ms : List URLFiniteStateMachine) (p p' : URLParser)
    (h : consumeLoop ch ms p = .ok p') :
    p'.urlCounter = p.urlCounter + (ms.map (fun m => m.advance ch)).countP
      URLFiniteStateMachine.isSuccess := by
  have := consumeLoop_tally (fun x => x.urlCounter) (fun _ => true)
    (fun _ _ _ => by simp) (fun _ _ => rfl) ch ms p p' h
  simpa using this

theorem consume_newline (p : URLParser) (hlive : ∀ m ∈ p.parsers, m.isLive = true) :
    ∃ p', p.consume '\n' = .ok p' ∧ p'.parsers = []
      ∧ p'.urlCounter = p.urlCounter + p.parsers.countP URLFiniteStateMachine.isAcceptable := by
  have hall : ∀ m ∈ p.parsers ++ [URLFiniteStateMachine.fresh], m.isLive = true := by
    intro m hm
    rcases List.mem_append.1 hm with h | h
    · exact hlive m h
    · simp at h; subst h; rfl
  obtain ⟨p', hp'⟩ := consumeLoop_isOk '\n' _ hall { p with parsers := [] }
  refine ⟨p', hp', ?_, ?_⟩
  · rw [consumeLoop_parsers _ _ _ _ hp']
    simp only [List.nil_append, List.filter_eq_nil_iff, List.mem_map]
    rintro m ⟨m0, hm0, rfl⟩
    simp [(URLFiniteStateMachine.advance_newline m0 (hall m0 hm0)).1]
  · rw [consumeLoop_urlCounter _ _ _ _ hp', List.countP_map]
    simp only [List.countP_append, List.countP_cons, List.countP_nil]
    have h1 : List.countP (URLFiniteStateMachine.isSuccess ∘ fun m => m.advance '\n') p.parsers
        = List.countP URLFiniteStateMachine.isAcceptable p.parsers := by
      apply List.countP_congr
      intro m hm
      simp [(URLFiniteStateMachine.advance_newline m (hlive m hm)).2.1]
    rw [h1]
    simp [URLFiniteStateMachine.advance, URLFiniteStateMachine.consume,
      URLFiniteStateMachine.fresh, URLFiniteStateMachine.isSuccess]

end URLParser

theorem scan_isOk (s : List Char) : ∃ p, scan s = .ok p ∧ p.parsers = [] := by
  obtain ⟨p1, hp1, hl1⟩ := URLParser.consumeAll_isOk s URLParser.fresh (by simp [URLParser.fresh])
  obtain ⟨p', hp', he, _⟩ := URLParser.consume_newline p1 hl1
  exact ⟨p', by simp only [scan, hp1, hp'], he⟩

theorem scan_tally (base : URLParser → Nat) (g : List Char × List Char → Bool)
    (hrec : ∀ (p : URLParser) (d q : List Char),
      base { p with
        urlCounter := p.urlCounter + 1
        countByDomain := p.countByDomain.increment d
        countByPath := p.countByPath.increment q } = base p + (if g (d, q) then 1 else 0))
    (hpar : ∀ (p : URLParser) (ps : List URLFiniteStateMachine),
      base { p with parsers := ps } = base p)
    (s : List Char) (p : URLParser) (h : scan s = .ok p) :
    base p = base URLParser.fresh + (List.range s.length).countP (fun i => urlSatisfies g (s.drop i)) := by
  rw [scan_eq_consumeAll] at h
  have := URLParser.consumeAll_tally base g hrec hpar _ _ _ h
  rw [countP_offsets_flush] at this
  simpa [URLParser.fresh] using this

/-! ## The order of the keys -/

theorem char_eq_of_toNat_eq {a b : Char} (h : a.toNat = b.toNat) : a = b := by
  rw [← Char.ofNat_toNat a, ← Char.ofNat_toNat b, h]

theorem strLess_irrefl (a : List Char) : strLess a a = false := by
  induction a with
  | nil => rfl
  | cons c a ih => simp [strLess, ih]

theorem strLess_trans {a b c : List Char} (hab : strLess a b = true) (hbc : strLess b c = true) :
    strLess a c = true := by
  induction a generalizing b c with
  | nil =>
    cases b with
    | nil => simp [strLess] at hab
    | cons y b =>
      cases c with
      | nil => simp [strLess] at hbc
      | cons z c => simp [strLess]
  | cons x a ih =>
    cases b with
    | nil => simp [strLess] at hab
    | cons y b =>
      cases c with
      | nil => simp [strLess] at hbc
      | cons z c =>
        simp only [strLess] at hab hbc ⊢
        split_ifs at hab hbc ⊢ <;> first
          | rfl
          | omega
          | exact ih hab hbc

theorem strLess_total {a b : List Char} (h1 : strLess a b = false) (h2 : a ≠ b) :
    strLess b a = true := by
  induction a generalizing b with
  | nil =>
    cases b with
    | nil => exact absurd rfl h2
    | cons y b => simp [strLess] at h1
  | cons x a ih =>
    cases b with
    | nil => simp [strLess]
    | cons y b =>
      simp only [strLess] at h1 ⊢
      split_ifs at h1 ⊢ <;> first
        | rfl
        | omega
        | (have hxy : x = y := char_eq_of_toNat_eq (by omega)
           subst hxy
           exact ih h1 (fun h => h2 (by rw [h])))

namespace CountMap

theorem find_eq_none_iff (m : CountMap) (k : List Char) : find m k = none ↔ k ∉ keys m := by
  induction m with
  | nil => simp [find, keys]
  | cons e m ih =>
    simp only [find, keys, List.map_cons, List.mem_cons, not_or]
    by_cases h : e.1 = k
    · simp [h]
    · simp only [h, if_false]
      rw [ih]
      simp [keys, Ne.symm h]

theorem mem_insertSorted (k : List Char) (v : Nat) (m : CountMap) (e : List Char × Nat) :
    e ∈ insertSorted k v m ↔ e = (k, v) ∨ e ∈ m := by
  induction m with
  | nil => simp [insertSorted]
  | cons x m ih =>
    simp only [insertSorted]
    split_ifs
    · simp
    · simp only [List.mem_cons, ih]
      tauto

theorem find_insertSorted (k : List Char) (v : Nat) (m : CountMap) (d : List Char)
    (h : find m k = none) :
    find (insertSorted k v m) d = if k = d then some v else find m d := by
  induction m with
  | nil => simp [insertSorted, find]
  | cons x m ih =>
    simp only [find] at h
    by_cases hx : x.1 = k
    · simp [hx] at h
    · simp only [hx, if_false] at h
      simp only [insertSorted]
      by_cases h1 : strLess k x.1 = true
      · simp only [h1, if_true]
        by_cases h2 : k = d
        · simp [find, h2]
        · simp [find, h2]
      · simp only [h1]
        by_cases h2 : k = d
        · subst h2
          simp [find, hx, ih h]
        · simp [find, ih h, h2]

theorem addAt_cons (x : List Char × Nat) (m : CountMap) (k : List Char) (n : Nat) :
    addAt (x :: m) k n = (if x.1 = k then (x.1, x.2 + n) else x) :: addAt m k n := rfl

theorem find_addAt (m : CountMap) (k : List Char) (n : Nat) (d : List Char) :
    find (addAt m k n) d = if k = d then (find m d).map (· + n) else find m d := by
  induction m with
  | nil => simp [addAt, find]
  | cons x m ih =>
    rw [addAt_cons]
    by_cases hx : x.1 = k
    · by_cases hd : k = d
      · subst hx; subst hd; simp [find]
      · have : ¬ x.1 = d := fun h => hd (hx ▸ h)
        simp only [find, hx, if_true, this, if_false, ih]
        simp [hx ▸ this]
    · by_cases hd : k = d
      · have : ¬ x.1 = d := fun h => hx (by rw [h, hd])
        simp only [find, hx, if_false, this, ih]
      · by_cases hxd : x.1 = d
        · rw [if_neg hx]
          simp only [find, hxd, if_true, if_neg hd]
        · simp only [find, hx, if_false, hxd, ih]

theorem find_increment (m : CountMap) (k d : List Char) :
    find (increment m k) d = if k = d then some (count m k + 1) else find m d := by
  unfold increment subscript count
  rw [find_addAt]
  cases h : find m k with
  | some v =>
    by_cases hd : k = d
    · subst hd; simp [h]
    · simp [hd]
  | none =>
    simp only [find_insertSorted k 0 m _ h]
    by_cases hd : k = d
    · simp [hd]
    · simp [hd]

theorem count_increment (m : CountMap) (k d : List Char) :
    count (increment m k) d = count m d + (if k = d then 1 else 0) := by
  unfold count
  rw [find_increment]
  by_cases hd : k = d
  · subst hd; simp [count]
  · simp [hd]

end CountMap
namespace CountMap

theorem mem_keys_insertSorted (k : List Char) (v : Nat) (m : CountMap) (y : List Char) :
    y ∈ keys (insertSorted k v m) ↔ y = k ∨ y ∈ keys m := by
  simp only [keys, List.mem_map, mem_insertSorted]
  constructor
  · rintro ⟨e, he | he, rfl⟩
    · left; rw [he]
    · right; exact ⟨e, he, rfl⟩
  · rintro (rfl | ⟨e, he, rfl⟩)
    · exact ⟨(y, v), Or.inl rfl, rfl⟩
    · exact ⟨e, Or.inr he, rfl⟩

theorem keys_addAt (m : CountMap) (k : List Char) (n : Nat) : keys (addAt m k n) = keys m := by
  induction m with
  | nil => rfl
  | cons x m ih =>
    rw [addAt_cons]
    simp only [keys, List.map_cons] at ih ⊢
    rw [ih]
    split_ifs <;> rfl

theorem wellFormed_insertSorted (k : List Char) (v : Nat) (m : CountMap)
    (hm : WellFormed m) (hk : k ∉ keys m) : WellFormed (insertSorted k v m) := by
  induction m with
  | nil => simp [insertSorted, WellFormed, keys]
  | cons x m ih =>
    have hm' : (x.1 :: keys m).Pairwise (fun a b => strLess a b = true) := hm
    rw [List.pairwise_cons] at hm'
    have hk' : k ≠ x.1 ∧ k ∉ keys m := by
      simpa [keys] using hk
    simp only [insertSorted]
    by_cases h1 : strLess k x.1 = true
    · simp only [h1, if_true]
      show (k :: x.1 :: keys m).Pairwise (fun a b => strLess a b = true)
      rw [List.pairwise_cons]
      refine ⟨?_, hm⟩
      intro y hy
      rcases List.mem_cons.1 hy with rfl | hy
      · exact h1
      · exact strLess_trans h1 (hm'.1 y hy)
    · simp only [h1]
      show (x.1 :: keys (insertSorted k v m)).Pairwise (fun a b => strLess a b = true)
      rw [List.pairwise_cons]
      refine ⟨?_, ih hm'.2 hk'.2⟩
      intro y hy
      rcases (mem_keys_insertSorted k v m y).1 hy with rfl | hy
      · exact strLess_total (by simpa using h1) hk'.1
      · exact hm'.1 y hy

theorem wellFormed_increment (m : CountMap) (k : List Char) (hm : WellFormed m) :
    WellFormed (increment m k) := by
  unfold increment WellFormed
  rw [keys_addAt]
  unfold subscript
  cases h : find m k with
  | some v => exact hm
  | none => exact wellFormed_insertSorted k 0 m hm ((find_eq_none_iff m k).1 h)

theorem positive_increment (m : CountMap) (k : List Char) (hm : Positive m) :
    Positive (increment m k) := by
  intro e he
  unfold increment addAt at he
  rw [List.mem_map] at he
  obtain ⟨e0, he0, rfl⟩ := he
  by_cases hk : e0.1 = k
  · simp [hk]
  · simp only [hk, if_false]
    unfold subscript at he0
    cases h : find m k with
    | some v =>
      rw [h] at he0
      exact hm e0 he0
    | none =>
      rw [h] at he0
      rcases (mem_insertSorted k 0 m e0).1 he0 with rfl | he0
      · exact absurd rfl hk
      · exact hm e0 he0

theorem total_insertSorted (k : List Char) (v : Nat) (m : CountMap) :
    total (insertSorted k v m) = total m + v := by
  induction m with
  | nil => simp [insertSorted, total]
  | cons x m ih =>
    simp only [insertSorted]
    split_ifs
    · simp [total]; omega
    · simp only [total, List.map_cons, List.sum_cons] at ih ⊢
      rw [ih]; omega

theorem addAt_of_not_mem (m : CountMap) (k : List Char) (n : Nat) (hk : k ∉ keys m) :
    addAt m k n = m := by
  induction m with
  | nil => rfl
  | cons x m ih =>
    have hk' : k ≠ x.1 ∧ k ∉ keys m := by
      simpa [keys] using hk
    rw [addAt_cons, ih hk'.2, if_neg (Ne.symm hk'.1)]

theorem total_addAt (m : CountMap) (k : List Char) (n : Nat) (hm : WellFormed m)
    (hk : k ∈ keys m) : total (addAt m k n) = total m + n := by
  induction m with
  | nil => simp [keys] at hk
  | cons x m ih =>
    have hm' : (x.1 :: keys m).Pairwise (fun a b => strLess a b = true) := hm
    rw [List.pairwise_cons] at hm'
    rw [addAt_cons]
    by_cases hx : x.1 = k
    · have hnot : k ∉ keys m := by
        intro hmem
        have := hm'.1 k hmem
        rw [hx, strLess_irrefl] at this
        exact Bool.false_ne_true this
      rw [addAt_of_not_mem m k n hnot, if_pos hx]
      simp [total]; omega
    · have hmem : k ∈ keys m := by
        have : k = x.1 ∨ k ∈ keys m := by simpa [keys] using hk
        rcases this with h | h
        · exact absurd h.symm hx
        · exact h
      rw [if_neg hx]
      have := ih hm'.2 hmem
      simp only [total, List.map_cons, List.sum_cons] at this ⊢
      rw [this]; omega

theorem total_increment (m : CountMap) (k : List Char) (hm : WellFormed m) :
    total (increment m k) = total m + 1 := by
  unfold increment subscript
  cases h : find m k with
  | some v =>
    have hk : k ∈ keys m := by
      by_contra hk
      rw [(find_eq_none_iff m k).2 hk] at h
      exact Option.noConfusion h
    exact total_addAt m k 1 hm hk
  | none =>
    have hk : k ∉ keys m := (find_eq_none_iff m k).1 h
    show total (addAt (insertSorted k 0 m) k 1) = total m + 1
    rw [total_addAt _ k 1 (wellFormed_insertSorted k 0 m hm hk)
      ((mem_keys_insertSorted k 0 m k).2 (Or.inl rfl)), total_insertSorted]

theorem mem_of_find (m : CountMap) (k : List Char) (v : Nat) (h : find m k = some v) :
    (k, v) ∈ m := by
  induction m with
  | nil => simp [find] at h
  | cons x m ih =>
    simp only [find] at h
    by_cases hx : x.1 = k
    · simp only [hx, if_true, Option.some.injEq] at h
      rw [← hx, ← h]
      exact List.mem_cons_self _ _
    · simp only [hx, if_false] at h
      exact List.mem_cons_of_mem _ (ih h)

theorem find_eq_expectedEntry (m : CountMap) (hm : Positive m) (k : List Char) :
    find m k = expectedEntry (count m k) := by
  unfold count expectedEntry
  cases h : find m k with
  | none => simp
  | some v =>
    have hv : 0 < v := hm (k, v) (mem_of_find m k v h)
    simp; omega

end CountMap

namespace URLParser

theorem consistent_fresh : Consistent fresh := by
  simp [Consistent, fresh, CountMap.WellFormed, CountMap.Positive, CountMap.total, CountMap.keys]

theorem consistent_record (p : URLParser) (d q : List Char) (h : Consistent p) :
    Consistent { p with
      urlCounter := p.urlCounter + 1
      countByDomain := p.countByDomain.increment d
      countByPath := p.countByPath.increment q } := by
  obtain ⟨h1, h2, h3, h4, h5, h6⟩ := h
  refine ⟨CountMap.wellFormed_increment _ _ h1, CountMap.wellFormed_increment _ _ h2,
    CountMap.positive_increment _ _ h3, CountMap.positive_increment _ _ h4, ?_, ?_⟩
  · show p.urlCounter + 1 = (p.countByDomain.increment d).total
    rw [CountMap.total_increment _ _ h1, h5]
  · show p.urlCounter + 1 = (p.countByPath.increment q).total
    rw [CountMap.total_increment _ _ h2, h6]

theorem consumeLoop_consistent (ch : Char) (ms : List URLFiniteStateMachine) (p p' : URLParser)
    (h : consumeLoop ch ms p = .ok p') (hp : Consistent p) : Consistent p' := by
  induction ms generalizing p with
  | nil =>
    simp only [consumeLoop, Except.ok.injEq] at h
    exact h ▸ hp
  | cons m ms ih =>
    unfold consumeLoop at h
    cases hm : m.consume ch with
    | error e => simp [hm] at h
    | ok m' =>
      simp only [hm] at h
      split_ifs at h
      · exact ih _ h (consistent_record p _ _ hp)
      · exact ih _ h hp
      · exact ih _ h hp

theorem consume_consistent (p p' : URLParser) (ch : Char) (h : p.consume ch = .ok p')
    (hp : Consistent p) : Consistent p' :=
  consumeLoop_consistent ch _ _ _ h hp

theorem consumeAll_consistent (w : List Char) (p p' : URLParser)
    (h : consumeAll p w = .ok p') (hp : Consistent p) : Consistent p' := by
  induction w generalizing p with
  | nil =>
    simp only [consumeAll, Except.ok.injEq] at h
    exact h ▸ hp
  | cons ch w ih =>
    unfold consumeAll at h
    cases hp1 : p.consume ch with
    | error e => simp [hp1] at h
    | ok p1 =>
      simp only [hp1] at h
      exact ih p1 h (consume_consistent p p1 ch hp1 hp)

end URLParser

theorem scan_consistent (s : List Char) (p : URLParser) (h : scan s = .ok p) :
    p.Consistent := by
  rw [scan_eq_consumeAll] at h
  exact URLParser.consumeAll_consistent _ _ _ h URLParser.consistent_fresh

theorem isSome_matchDomain (r : List Char) :
    (if (r.takeWhile isDomainChar).isEmpty then none
      else some ((r.takeWhile isDomainChar).map asciiLowercase,
        pathOf (r.dropWhile isDomainChar))).isSome = startsWithDomainChar r := by
  cases r with
  | nil => rfl
  | cons c r =>
    by_cases hc : isDomainChar c = true
    · simp [List.takeWhile_cons, hc, startsWithDomainChar]
    · simp [List.takeWhile_cons, hc, startsWithDomainChar]

theorem isSome_matchUrl (t : List Char) : (matchUrl t).isSome = startsUrl t := by
  unfold matchUrl startsUrl afterScheme
  rw [URLFiniteStateMachine.schemeHttp_toList, URLFiniteStateMachine.schemeHttps_toList]
  by_cases h1 : ['h', 't', 't', 'p', ':', '/', '/'].isPrefixOf t = true
  · obtain ⟨r, rfl⟩ := List.isPrefixOf_iff_prefix.1 h1
    simp only [h1, if_true]
    rw [isSome_matchDomain]
    simp
  · by_cases h2 : ['h', 't', 't', 'p', 's', ':', '/', '/'].isPrefixOf t = true
    · obtain ⟨r, rfl⟩ := List.isPrefixOf_iff_prefix.1 h2
      simp only [h1, h2, if_true]
      have hd : List.drop 8 (['h', 't', 't', 'p', 's', ':', '/', '/'] ++ r) = r := rfl
      simp only [Bool.false_eq_true, if_false, hd]
      rw [isSome_matchDomain]
      simp
    · simp [h1, h2]

/-- C1: after a new scanner has read `s` and then the newline, `urlCounter` is the
number of offsets of `s` at which `http://` or `https://` is followed by a domain
character (an ASCII letter, a digit, `.` or `-`), whatever precedes the offset.
On the text of the example, nine candidates separated by blanks, that number and
`urlCounter` are 5: the domains `A`, `9`, `-` and `.x` after a scheme count, and
so does the URL that follows the letter `x`; the domain `_`, the empty domain,
the scheme with one slash and the uppercase scheme do not. -/
theorem C1_urlCounter_counts_url_starts (s : List Char) :
    (∃ p, scan s = .ok p ∧ p.urlCounter = urlStartCount s)
      ∧ urlStartCount
          "http://A https://9 http://- http://.x http://_ http:// https:/a HTTP://a xhttp://z".toList
          = 5
      ∧ ∃ p, scan
          "http://A https://9 http://- http://.x http://_ http:// https:/a HTTP://a xhttp://z".toList
            = .ok p ∧ p.urlCounter = 5 := by
  refine ⟨?_, by rfl, _, by rfl, rfl⟩
  obtain ⟨p, hp, _⟩ := scan_isOk s
  refine ⟨p, hp, ?_⟩
  have := scan_tally (fun x => x.urlCounter) (fun _ => true) (fun _ _ _ => by simp)
    (fun _ _ => rfl) s p hp
  beta_reduce at this
  rw [this]
  simp only [URLParser.fresh, Nat.zero_add, urlStartCount]
  apply List.countP_congr
  intro i _
  rw [← isSome_matchUrl]
  unfold urlSatisfies
  cases matchUrl (s.drop i) <;> simp

theorem scan_count_domain (s : List Char) (p : URLParser) (h : scan s = .ok p) (d : List Char) :
    p.countByDomain.count d = domainStartCount s d := by
  have := scan_tally (fun x => x.countByDomain.count d) (fun r => decide (r.1 = d))
    (fun p' d' q' => by simp [CountMap.count_increment]) (fun _ _ => rfl) s p h
  beta_reduce at this
  rw [this]
  simp only [URLParser.fresh, CountMap.count, CountMap.find, Option.getD_none, Nat.zero_add,
    domainStartCount]
  apply List.countP_congr
  intro i _
  unfold urlSatisfies
  cases matchUrl (s.drop i) <;> simp

theorem scan_count_path (s : List Char) (p : URLParser) (h : scan s = .ok p) (q : List Char) :
    p.countByPath.count q = pathStartCount s q := by
  have := scan_tally (fun x => x.countByPath.count q) (fun r => decide (r.2 = q))
    (fun p' d' q' => by simp [CountMap.count_increment]) (fun _ _ => rfl) s p h
  beta_reduce at this
  rw [this]
  simp only [URLParser.fresh, CountMap.count, CountMap.find, Option.getD_none, Nat.zero_add,
    pathStartCount]
  apply List.countP_congr
  intro i _
  unfold urlSatisfies
  cases matchUrl (s.drop i) <;> simp

theorem CountMap.eq_nil_of_total_eq_zero (m : CountMap) (hm : m.Positive)
    (h : m.total = 0) : m = [] := by
  cases m with
  | nil => rfl
  | cons x m =>
    have := hm x (List.mem_cons_self _ _)
    simp [CountMap.total] at h
    omega

theorem startsUrl_eq_false_of_not_infix (s : List Char)
    (h1 : ¬ List.IsInfix "http://".toList s) (h2 : ¬ List.IsInfix "https://".toList s)
    (i : Nat) : startsUrl (s.drop i) = false := by
  unfold startsUrl
  have e1 : "http://".toList.isPrefixOf (s.drop i) = false := by
    apply Bool.eq_false_iff.2
    intro hp
    exact h1 ((List.isPrefixOf_iff_prefix.1 hp).isInfix.trans (List.drop_suffix i s).isInfix)
  have e2 : "https://".toList.isPrefixOf (s.drop i) = false := by
    apply Bool.eq_false_iff.2
    intro hp
    exact h2 ((List.isPrefixOf_iff_prefix.1 hp).isInfix.trans (List.drop_suffix i s).isInfix)
  rw [e1, e2]
  rfl

/-- C2: after the scan of `s`, `countByDomain` stores for each key the number of
URL start offsets of `s` whose longest run of domain characters, ASCII
lowercased, is that key, `countByPath` stores for each key the number of URL
start offsets with that path, and a key with no such offset has no entry. On the
example text the result is total 2, domains `foo.com` twice, paths `/bar` and
`/baz` once each. On `see http://Foo.COM/Bar and http://foo.com/baz
https://FOO.com` the three domains are counted under the one key `foo.com`, and
the paths `/`, `/Bar`, `/baz` once each. -/
theorem C2_maps_count_domains_and_paths (s : List Char) :
    (∃ p, scan s = .ok p
      ∧ (∀ d, p.countByDomain.find d = expectedEntry (domainStartCount s d))
      ∧ (∀ q, p.countByPath.find q = expectedEntry (pathStartCount s q)))
    ∧ scan "see http://foo.com/bar and http://foo.com/baz\n".toList
        = .ok { urlCounter := 2, countByDomain := [("foo.com".toList, 2)],
                countByPath := [("/bar".toList, 1), ("/baz".toList, 1)], parsers := [] }
    ∧ scan "see http://Foo.COM/Bar and http://foo.com/baz https://FOO.com".toList
        = .ok { urlCounter := 3, countByDomain := [("foo.com".toList, 3)],
                countByPath := [("/".toList, 1), ("/Bar".toList, 1), ("/baz".toList, 1)],
                parsers := [] }
    ∧ domainStartCount "see http://Foo.COM/Bar and http://foo.com/baz https://FOO.com".toList
        "foo.com".toList = 3
    ∧ domainStartCount "see http://Foo.COM/Bar and http://foo.com/baz https://FOO.com".toList
        "Foo.COM".toList = 0
    ∧ pathStartCount "see http://Foo.COM/Bar and http://foo.com/baz https://FOO.com".toList
        "/Bar".toList = 1
    ∧ pathStartCount "see http://Foo.COM/Bar and http://foo.com/baz https://FOO.com".toList
        "/".toList = 1 := by
  refine ⟨?_, by rfl, by rfl, by rfl, by rfl, by rfl, by rfl⟩
  obtain ⟨p, hp, _⟩ := scan_isOk s
  obtain ⟨_, _, h3, h4, _, _⟩ := scan_consistent s p hp
  refine ⟨p, hp, ?_, ?_⟩
  · intro d
    rw [CountMap.find_eq_expectedEntry _ h3, scan_count_domain s p hp]
  · intro q
    rw [CountMap.find_eq_expectedEntry _ h4, scan_count_path s p hp]

/-- C5: after every sequence of `consume` steps from a new scanner, `urlCounter`
is the sum of the counts of `countByDomain` and the sum of the counts of
`countByPath`. -/
theorem C5_counter_is_sum_of_each_map (s : List Char) :
    ∃ p, URLParser.fresh.consumeAll s = .ok p
      ∧ p.urlCounter = p.countByDomain.total ∧ p.urlCounter = p.countByPath.total := by
  obtain ⟨p, hp, _⟩ := URLParser.consumeAll_isOk s URLParser.fresh (by simp [URLParser.fresh])
  obtain ⟨_, _, _, _, h5, h6⟩ :=
    URLParser.consumeAll_consistent s _ p hp URLParser.consistent_fresh
  exact ⟨p, hp, h5, h6⟩

/-- C7: an input that contains neither `http://` nor `https://` gives no match:
after the scan `urlCounter` is 0 and both maps are empty. -/
theorem C7_no_scheme_no_match (s : List Char)
    (h1 : ¬ List.IsInfix "http://".toList s) (h2 : ¬ List.IsInfix "https://".toList s) :
    ∃ p, scan s = .ok p ∧ p.urlCounter = 0 ∧ p.countByDomain = [] ∧ p.countByPath = [] := by
  obtain ⟨p, hp, _⟩ := scan_isOk s
  obtain ⟨_, _, h3, h4, h5, h6⟩ := scan_consistent s p hp
  have hc : p.urlCounter = 0 := by
    have := scan_tally (fun x => x.urlCounter) (fun _ => true) (fun _ _ _ => by simp)
      (fun _ _ => rfl) s p hp
    beta_reduce at this
    rw [this]
    simp only [URLParser.fresh, Nat.zero_add, List.countP_eq_zero]
    intro i _
    have hs := startsUrl_eq_false_of_not_infix s h1 h2 i
    rw [← isSome_matchUrl] at hs
    unfold urlSatisfies
    cases hm : matchUrl (s.drop i) with
    | none => simp
    | some r => simp [hm] at hs
  refine ⟨p, hp, hc, ?_, ?_⟩
  · exact CountMap.eq_nil_of_total_eq_zero _ h3 (by omega)
  · exact CountMap.eq_nil_of_total_eq_zero _ h4 (by omega)

/-- The malformed prefix `htto://x.com` gives no match. -/
theorem C7_no_scheme_no_match_witness :
    ¬ List.IsInfix "http://".toList "htto://x.com".toList
      ∧ ¬ List.IsInfix "https://".toList "htto://x.com".toList
      ∧ ∃ p, scan "htto://x.com".toList = .ok p ∧ p.urlCounter = 0
          ∧ p.countByDomain = [] ∧ p.countByPath = [] :=
  ⟨by decide, by decide, C7_no_scheme_no_match "htto://x.com".toList (by decide) (by decide)⟩

/-- C10: in every state reached from a new scanner, the newline empties the live
collection; each automaton in `domain_content`, `path_slash` or `path_content`
ends in `success` and adds one to `urlCounter`, each automaton in a scheme prefix
state ends in `error` and is not counted. -/
theorem C10_flush_empties_live_collection (s : List Char) (p : URLParser)
    (h : URLParser.fresh.consumeAll s = .ok p) :
    ∃ p', p.consume '\n' = .ok p' ∧ p'.parsers = []
      ∧ p'.urlCounter = p.urlCounter + p.parsers.countP URLFiniteStateMachine.isAcceptable
      ∧ ∀ m ∈ p.parsers, (m.isAcceptable = true ∨ m.inPrefix = true)
          ∧ ∃ m', m.consume '\n' = .ok m' ∧ m'.isSuccess = m.isAcceptable
              ∧ m'.isError = m.inPrefix := by
  obtain ⟨p0, hp0, hl⟩ := URLParser.consumeAll_isOk s URLParser.fresh (by simp [URLParser.fresh])
  rw [h] at hp0
  cases hp0
  obtain ⟨p', hp', he, hc⟩ := URLParser.consume_newline p hl
  refine ⟨p', hp', he, hc, ?_⟩
  intro m hm
  have hlive := hl m hm
  have hadv := URLFiniteStateMachine.advance_newline m hlive
  refine ⟨?_, m.advance '\n', URLFiniteStateMachine.consume_of_isLive m '\n' hlive,
    hadv.2.1, hadv.2.2⟩
  simp only [URLFiniteStateMachine.isLive, Bool.and_eq_true, Bool.not_eq_true'] at hlive
  simp only [URLFiniteStateMachine.inPrefix, hlive.1, hlive.2]
  cases m.isAcceptable <;> simp

/-- After `http://a` a scanner holds one automaton, in state `domain_content`,
and the newline finishes it. -/
theorem C10_flush_empties_live_collection_witness :
    URLParser.fresh.consumeAll "http://a".toList
        = .ok { urlCounter := 0, countByDomain := [], countByPath := [],
                parsers := [{ currentState := State.domain_content, domain := ['a'], path := [] }] }
      ∧ ∃ p', ({ urlCounter := 0, countByDomain := [], countByPath := [],
                 parsers := [{ currentState := State.domain_content, domain := ['a'],
                               path := [] }] } : URLParser).consume '\n' = .ok p'
          ∧ p'.parsers = [] ∧ p'.urlCounter = 0 + 1 :=
  ⟨by rfl, (C10_flush_empties_live_collection "http://a".toList
    { urlCounter := 0, countByDomain := [], countByPath := [],
      parsers := [{ currentState := State.domain_content, domain := ['a'], path := [] }] }
    (by rfl)).imp (fun _ hp => ⟨hp.1, hp.2.1, hp.2.2.1⟩)⟩

/-- C6, as stated, fails: the scheme is matched case-sensitively, so the scan of
`HTTP://Example.COM/x` records nothing and its maps are empty. -/
theorem C6_uppercase_scheme_is_not_matched :
    ¬ ∃ p1 p2, scan "HTTP://Example.COM/x".toList = .ok p1
        ∧ scan "http://example.com/x".toList = .ok p2
        ∧ p1.countByDomain = p2.countByDomain ∧ p1.countByDomain ≠ []
        ∧ p1.countByPath = p2.countByPath ∧ p1.countByPath ≠ [] := by
  rintro ⟨p1, p2, h1, _, _, hne, _⟩
  have h : scan "HTTP://Example.COM/x".toList = .ok URLParser.fresh := by rfl
  rw [h] at h1
  cases h1
  exact hne rfl

/-- C6, amended: with the lowercase scheme, the scans of `http://Example.COM/x`
and of `http://example.com/x` end with the same counters, one entry
`example.com` and one entry `/x`; the scan of `HTTP://Example.COM/x` records
nothing. -/
theorem C6_domain_case_is_folded :
    scan "http://Example.COM/x".toList
        = .ok { urlCounter := 1, countByDomain := [("example.com".toList, 1)],
                countByPath := [("/x".toList, 1)], parsers := [] }
      ∧ scan "http://example.com/x".toList
        = .ok { urlCounter := 1, countByDomain := [("example.com".toList, 1)],
                countByPath := [("/x".toList, 1)], parsers := [] }
      ∧ scan "HTTP://Example.COM/x".toList
        = .ok { urlCounter := 0, countByDomain := [], countByPath := [], parsers := [] } :=
  ⟨by rfl, by rfl, by rfl⟩

/-- C8: the scan of `http://a.comhttp://b.com` finds two URLs. The first one is
finished by the `:` and recorded under the domain `a.comhttp` with path `/`;
at the end there is no key `a.com`, the second URL is under `b.com`, and the
path `/` has been counted twice. -/
theorem C8_adjacent_urls :
    URLParser.fresh.consumeAll "http://a.comhttp:".toList
        = .ok { urlCounter := 1, countByDomain := [("a.comhttp".toList, 1)],
                countByPath := [("/".toList, 1)],
                parsers := [{ currentState := State.prefix_colon, domain := [], path := [] }] }
      ∧ ∃ p, scan "http://a.comhttp://b.com".toList = .ok p
          ∧ p.urlCounter = 2
          ∧ p.countByDomain = [("a.comhttp".toList, 1), ("b.com".toList, 1)]
          ∧ p.countByDomain.find "a.com".toList = none
          ∧ p.countByPath = [("/".toList, 2)] ∧ p.parsers = [] :=
  ⟨by rfl,
    { urlCounter := 2, countByDomain := [("a.comhttp".toList, 1), ("b.com".toList, 1)],
      countByPath := [("/".toList, 2)], parsers := [] },
    by rfl, rfl, rfl, by rfl, rfl, rfl⟩

namespace URLFiniteStateMachine

theorem feed_append (m : URLFiniteStateMachine) (a b : List Char) :
    feed m (a ++ b) =
      match feed m a with
      | .error e => .error e
      | .ok m' => feed m' b := by
  induction a generalizing m with
  | nil => rfl
  | cons ch a ih =>
    simp only [List.cons_append, feed]
    cases m.consume ch with
    | error e => rfl
    | ok m' => exact ih m'

theorem isLive_of_consume (m m' : URLFiniteStateMachine) (ch : Char)
    (h : m.consume ch = .ok m') : m.isLive = true := by
  obtain ⟨st, d, q⟩ := m
  cases st <;> simp [consume] at h <;> rfl

theorem feed_take_isLive (w : List Char) (m m' : URLFiniteStateMachine)
    (h : feed m w = .ok m') (k : Nat) (hk : k < w.length) :
    ∃ m'', feed m (w.take k) = .ok m'' ∧ m''.isLive = true := by
  induction w generalizing m k with
  | nil => simp at hk
  | cons ch w ih =>
    unfold feed at h
    cases hm : m.consume ch with
    | error e => simp [hm] at h
    | ok m1 =>
      simp only [hm] at h
      cases k with
      | zero => exact ⟨m, rfl, isLive_of_consume m m1 ch hm⟩
      | succ k =>
        obtain ⟨m'', h1, h2⟩ := ih m1 h k (by simpa using hk)
        exact ⟨m'', by simp only [List.take_succ_cons, feed, hm, h1], h2⟩

theorem feed_scheme (scheme : List Char)
    (hs : scheme = "http".toList ∨ scheme = "https".toList) :
    feed fresh (scheme ++ "://".toList)
      = .ok { currentState := State.prefis_slash_2, domain := [], path := [] } := by
  rcases hs with rfl | rfl <;> rfl

theorem feed_domain_content (d : List Char) (hd : ∀ c ∈ d, isDomainContent c = true)
    (dom pth : List Char) :
    feed { currentState := State.domain_content, domain := dom, path := pth } d
      = .ok { currentState := State.domain_content, domain := dom ++ d.map tolower,
              path := pth } := by
  induction d generalizing dom with
  | nil => simp [feed]
  | cons c d ih =>
    have hc : isDomainContent c = true := hd c (List.mem_cons_self _ _)
    have := ih (fun x hx => hd x (List.mem_cons_of_mem _ hx)) (dom ++ [tolower c])
    simp only [feed, consume, hc, if_true, addToDomain, this]
    simp

theorem feed_domain (d : List Char) (hne : d ≠ []) (hd : ∀ c ∈ d, isDomainContent c = true) :
    feed { currentState := State.prefis_slash_2, domain := [], path := [] } d
      = .ok { currentState := State.domain_content, domain := d.map tolower, path := [] } := by
  cases d with
  | nil => exact absurd rfl hne
  | cons c d =>
    have hc : isDomainContent c = true := hd c (List.mem_cons_self _ _)
    have := feed_domain_content d (fun x hx => hd x (List.mem_cons_of_mem _ hx)) [tolower c] []
    simp only [feed, consume, hc, if_true, addToDomain]
    simpa using this

theorem feed_path_content (q : List Char) (hq : ∀ c ∈ q, isPathContent c = true)
    (st : State) (hst : st = State.path_slash ∨ st = State.path_content) (dom pth : List Char) :
    ∃ st', (st' = State.path_slash ∨ st' = State.path_content)
      ∧ feed { currentState := st, domain := dom, path := pth } q
        = .ok { currentState := st', domain := dom, path := pth ++ q } := by
  induction q generalizing st pth with
  | nil => exact ⟨st, hst, by simp [feed]⟩
  | cons c q ih =>
    have hc : isPathContent c = true := hq c (List.mem_cons_self _ _)
    obtain ⟨st', hst', h⟩ := ih (fun x hx => hq x (List.mem_cons_of_mem _ hx))
      State.path_content (Or.inr rfl) (pth ++ [c])
    refine ⟨st', hst', ?_⟩
    rcases hst with rfl | rfl <;> simp only [feed, consume, hc, if_true, h] <;> simp

/-- The run of the automaton on a whole URL with an explicit path. -/
theorem feed_url_with_path (scheme d q : List Char) (t : Char)
    (hs : scheme = "http".toList ∨ scheme = "https".toList) (hne : d ≠ [])
    (hd : ∀ c ∈ d, isDomainContent c = true) (hq : ∀ c ∈ q, isPathContent c = true)
    (ht : isPathContent t = false) :
    feed fresh (scheme ++ "://".toList ++ d ++ "/".toList ++ q ++ [t])
      = .ok { currentState := State.success, domain := d.map tolower,
              path := "/".toList ++ q } := by
  obtain ⟨st', hst', hp⟩ := feed_path_content q hq State.path_slash (Or.inl rfl)
    (d.map tolower) ['/']
  rw [feed_append, feed_append, feed_append, feed_append, feed_scheme scheme hs]
  simp only [feed_domain d hne hd]
  have hslash :
      feed { currentState := State.domain_content, domain := d.map tolower, path := [] } ['/']
      = .ok { currentState := State.path_slash, domain := d.map tolower, path := ['/'] } := by
    simp [feed, consume, isDomainContent_slash]
  have e : "/".toList = ['/'] := rfl
  simp only [e, hslash, hp]
  rcases hst' with rfl | rfl <;> simp [feed, consume, ht]

/-- The run of the automaton on a URL without a path. -/
theorem feed_url_domain_only (scheme d : List Char) (t : Char)
    (hs : scheme = "http".toList ∨ scheme = "https".toList) (hne : d ≠ [])
    (hd : ∀ c ∈ d, isDomainContent c = true)
    (ht : isDomainContent t = false) (ht' : t ≠ '/') :
    feed fresh (scheme ++ "://".toList ++ d ++ [t])
      = .ok { currentState := State.success, domain := d.map tolower, path := ['/'] } := by
  rw [feed_append, feed_append, feed_scheme scheme hs]
  simp only [feed_domain d hne hd]
  simp [feed, consume, ht, Ne.symm ht']

end URLFiniteStateMachine

/-- C3: on `scheme://` followed by a non-empty run `d` of domain characters
(ASCII letters, digits, `.`, `-`), a `/`, a run `q` of path characters (ASCII
letters, digits, `.`, `,`, `/`, `+`, `_`) and a character `t` that is not a path
character, a new automaton is in a non-terminal state after every character
before `t` and in `success` after `t`; `takeDomain` is `d` with its ASCII
uppercase letters lowercased and `takePath` is `/` followed by `q` unchanged. On `https://Ex-4mple.COM/a/B_c.d,+9`
and a blank the automaton ends in `success` with the domain `ex-4mple.com` and
the path `/a/B_c.d,+9`. -/
theorem C3_url_with_path (scheme d q : List Char) (t : Char)
    (hs : scheme = "http".toList ∨ scheme = "https".toList) (hne : d ≠ [])
    (hd : ∀ c ∈ d, isDomainChar c = true) (hq : ∀ c ∈ q, isPathChar c = true)
    (ht : isPathChar t = false) :
    (∀ k, k ≤ (scheme ++ "://".toList ++ d ++ "/".toList ++ q).length →
        ∃ m, URLFiniteStateMachine.fresh.feed
              ((scheme ++ "://".toList ++ d ++ "/".toList ++ q).take k) = .ok m
          ∧ m.isSuccess = false ∧ m.isError = false)
      ∧ (∃ m, URLFiniteStateMachine.fresh.feed
              (scheme ++ "://".toList ++ d ++ "/".toList ++ q ++ [t]) = .ok m
          ∧ m.isSuccess = true ∧ m.takeDomain = d.map asciiLowercase
          ∧ m.takePath = "/".toList ++ q)
      ∧ URLFiniteStateMachine.fresh.feed "https://Ex-4mple.COM/a/B_c.d,+9 ".toList
          = .ok { currentState := State.success, domain := "ex-4mple.com".toList,
                  path := "/a/B_c.d,+9".toList } := by
  have hrun := URLFiniteStateMachine.feed_url_with_path scheme d q t hs hne
    (fun c hc => (isDomainContent_eq_isDomainChar c).trans (hd c hc))
    (fun c hc => (isPathContent_eq_isPathChar c).trans (hq c hc))
    ((isPathContent_eq_isPathChar t).trans ht)
  refine ⟨?_, ⟨_, hrun, rfl, ?_, rfl⟩, by rfl⟩
  · intro k hk
    obtain ⟨m, hm, hl⟩ := URLFiniteStateMachine.feed_take_isLive _ _ _ hrun k
      (by rw [List.length_append]; simp only [List.length_singleton]; omega)
    rw [List.take_append_of_le_length hk] at hm
    simp only [URLFiniteStateMachine.isLive, Bool.and_eq_true, Bool.not_eq_true'] at hl
    exact ⟨m, hm, hl.1, hl.2⟩
  · show d.map tolower = d.map asciiLowercase
    rw [asciiLowercase_eq]

/-- The automaton on `https://Ex-4mple.COM/a/B_c.d,+9` followed by a blank: it is
running after each of the 31 characters of the URL, and the blank finishes it
with the domain `ex-4mple.com` and the path `/a/B_c.d,+9`. -/
theorem C3_url_with_path_witness :
    (∀ c ∈ "Ex-4mple.COM".toList, isDomainChar c = true)
      ∧ (∀ c ∈ "a/B_c.d,+9".toList, isPathChar c = true)
      ∧ isPathChar ' ' = false
      ∧ (∀ k, k ≤ 31 →
          ∃ m, URLFiniteStateMachine.fresh.feed
                ("https://Ex-4mple.COM/a/B_c.d,+9".toList.take k) = .ok m
            ∧ m.isSuccess = false ∧ m.isError = false)
      ∧ ∃ m, URLFiniteStateMachine.fresh.feed "https://Ex-4mple.COM/a/B_c.d,+9 ".toList = .ok m
          ∧ m.isSuccess = true ∧ m.takeDomain = "ex-4mple.com".toList
          ∧ m.takePath = "/a/B_c.d,+9".toList :=
  ⟨by decide, by decide, by decide,
    (C3_url_with_path "https".toList "Ex-4mple.COM".toList "a/B_c.d,+9".toList ' '
      (Or.inr rfl) (by decide) (by decide) (by decide) (by decide)).1,
    (C3_url_with_path "https".toList "Ex-4mple.COM".toList "a/B_c.d,+9".toList ' '
      (Or.inr rfl) (by decide) (by decide) (by decide) (by decide)).2.1⟩

/-- C4: on `scheme://` followed by a non-empty run `d` of domain characters and
a character `t` that is neither a domain character nor `/`, a new automaton ends
in `success` with the path `/` (and the domain `d` lowercased). -/
theorem C4_domain_only_url (scheme d : List Char) (t : Char)
    (hs : scheme = "http".toList ∨ scheme = "https".toList) (hne : d ≠ [])
    (hd : ∀ c ∈ d, isDomainContent c = true)
    (ht : isDomainContent t = false) (hslash : t ≠ '/') :
    ∃ m, URLFiniteStateMachine.fresh.feed (scheme ++ "://".toList ++ d ++ [t]) = .ok m
      ∧ m.isSuccess = true ∧ m.takePath = ['/'] ∧ m.takeDomain = d.map tolower :=
  ⟨_, URLFiniteStateMachine.feed_url_domain_only scheme d t hs hne hd ht hslash, rfl, rfl, rfl⟩

/-- The automaton on `http://example.com` followed by a blank. -/
theorem C4_domain_only_url_witness :
    (∀ c ∈ "example.com".toList, isDomainContent c = true)
      ∧ isDomainContent ' ' = false ∧ ' ' ≠ '/'
      ∧ ∃ m, URLFiniteStateMachine.fresh.feed
              ("http".toList ++ "://".toList ++ "example.com".toList ++ [' ']) = .ok m
          ∧ m.isSuccess = true ∧ m.takePath = ['/']
          ∧ m.takeDomain = "example.com".toList.map tolower :=
  ⟨by decide, by decide, by decide,
    C4_domain_only_url "http".toList "example.com".toList ' '
      (Or.inl rfl) (by decide) (by decide) (by decide) (by decide)⟩

theorem perm_multimapEmplace (result : CountIndex) (c : Nat) (k : List Char) :
    (multimapEmplace result c k).Perm ((c, k) :: result) := by
  induction result with
  | nil => exact List.Perm.refl _
  | cons e rest ih =>
    simp only [multimapEmplace]
    split_ifs
    · exact List.Perm.refl _
    · exact (List.Perm.cons e ih).trans (List.Perm.swap _ _ _)

theorem pairwise_multimapEmplace (result : CountIndex) (c : Nat) (k : List Char)
    (hsorted : result.Pairwise reportBefore)
    (hkeys : ∀ e ∈ result, strLess e.2 k = true) :
    (multimapEmplace result c k).Pairwise reportBefore := by
  induction result with
  | nil => simp [multimapEmplace]
  | cons e rest ih =>
    rw [List.pairwise_cons] at hsorted
    simp only [multimapEmplace]
    by_cases hc : c > e.1
    · simp only [hc, if_true]
      rw [List.pairwise_cons]
      refine ⟨?_, List.pairwise_cons.2 hsorted⟩
      intro y hy
      rcases List.mem_cons.1 hy with rfl | hy
      · exact Or.inl hc
      · rcases hsorted.1 y hy with h | h
        · exact Or.inl (by show c > y.1; omega)
        · exact Or.inl (by show c > y.1; omega)
    · simp only [hc, if_false]
      rw [List.pairwise_cons]
      refine ⟨?_, ih hsorted.2 (fun x hx => hkeys x (List.mem_cons_of_mem _ hx))⟩
      intro y hy
      rcases List.mem_cons.1 ((perm_multimapEmplace rest c k).mem_iff.1 hy) with rfl | hy
      · have hk := hkeys e (List.mem_cons_self _ _)
        by_cases heq : e.1 = c
        · exact Or.inr ⟨heq, hk⟩
        · exact Or.inl (by show e.1 > c; omega)
      · exact hsorted.1 y hy

theorem perm_revertIndexLoop (m : CountMap) (result : CountIndex) :
    (revertIndexLoop m result).1.Perm (result ++ m.map Prod.swap) := by
  induction m generalizing result with
  | nil => simp [revertIndexLoop]
  | cons e rest ih =>
    simp only [revertIndexLoop, List.map_cons]
    refine (ih _).trans ?_
    refine ((perm_multimapEmplace result e.2 e.1).append_right _).trans ?_
    exact (List.perm_middle).symm

theorem pairwise_revertIndexLoop (m : CountMap) (result : CountIndex)
    (hm : m.WellFormed) (hsorted : result.Pairwise reportBefore)
    (hkeys : ∀ e ∈ result, ∀ k ∈ m.keys, strLess e.2 k = true) :
    (revertIndexLoop m result).1.Pairwise reportBefore := by
  induction m generalizing result with
  | nil => exact hsorted
  | cons e rest ih =>
    have hm' : (e.1 :: CountMap.keys rest).Pairwise (fun a b => strLess a b = true) := hm
    rw [List.pairwise_cons] at hm'
    simp only [revertIndexLoop]
    apply ih _ hm'.2
    · exact pairwise_multimapEmplace result e.2 e.1 hsorted
        (fun x hx => hkeys x hx e.1 (by simp [CountMap.keys]))
    · intro x hx k hk
      rcases List.mem_cons.1 ((perm_multimapEmplace result e.2 e.1).mem_iff.1 hx) with rfl | hx
      · exact hm'.1 k hk
      · exact hkeys x hx k (by simp only [CountMap.keys, List.map_cons] at hk ⊢; exact List.mem_cons_of_mem _ hk)

theorem printLoop_eq_some (topCount : Nat) (l : CountIndex) (current : Nat)
    (h : current + min (topCount + 1 - current) l.length ≤ INT_MAX) :
    printLoop topCount current l = some (l.take (topCount + 1 - current)) := by
  induction l generalizing current with
  | nil => simp [printLoop]
  | cons e rest ih =>
    simp only [printLoop]
    by_cases h1 : current > topCount
    · have : topCount + 1 - current = 0 := by omega
      simp [h1, this]
    · simp only [List.length_cons] at h
      have h2 : current ≠ INT_MAX := by omega
      have h3 : topCount + 1 - current = (topCount + 1 - (current + 1)) + 1 := by omega
      rw [if_neg h1, if_neg h2, ih (current + 1) (by omega), h3, List.take_succ_cons]
      rfl

theorem printLoop_eq_none (topCount : Nat) (l : CountIndex) (current : Nat)
    (h1 : current ≤ INT_MAX) (h2 : INT_MAX ≤ topCount) (h3 : INT_MAX - current < l.length) :
    printLoop topCount current l = none := by
  induction l generalizing current with
  | nil => simp at h3
  | cons e rest ih =>
    simp only [printLoop]
    have hle : ¬ current > topCount := by omega
    rw [if_neg hle]
    by_cases h4 : current = INT_MAX
    · rw [if_pos h4]
    · simp only [List.length_cons] at h3
      rw [if_neg h4, ih (current + 1) (by omega) (by omega)]
      rfl

theorem take_min_length (n : Nat) (l : CountIndex) : l.take (min n l.length) = l.take n := by
  by_cases h : n ≤ l.length
  · rw [Nat.min_eq_left h]
  · rw [Nat.min_eq_right (by omega), List.take_length, List.take_of_length_le (by omega)]

theorem length_revertIndex (m : CountMap) : (revertIndex m).1.length = m.length := by
  have := (perm_revertIndexLoop m []).length_eq
  simpa using this

theorem strLess_binaryKey (w j k : Nat) (hjk : j < k) (hk : k < 2 ^ w) :
    strLess (binaryKey w j) (binaryKey w k) = true := by
  induction w generalizing j k with
  | zero => simp at hk; omega
  | succ w ih =>
    have hpos : 0 < 2 ^ w := Nat.two_pow_pos w
    have hj := Nat.div_add_mod j (2 ^ w)
    have hk' := Nat.div_add_mod k (2 ^ w)
    have hjm := Nat.mod_lt j hpos
    have hkm := Nat.mod_lt k hpos
    have hle : j / 2 ^ w ≤ k / 2 ^ w := Nat.div_le_div_right (Nat.le_of_lt hjk)
    have hk2 : k / 2 ^ w < 2 := by
      rw [Nat.div_lt_iff_lt_mul hpos]
      rw [Nat.pow_succ] at hk
      omega
    simp only [binaryKey, strLess]
    generalize j / 2 ^ w = qj at hj hle ⊢
    generalize k / 2 ^ w = qk at hk' hle hk2 ⊢
    by_cases hq : qj = qk
    · have hlt : j % 2 ^ w < k % 2 ^ w := by
        rw [hq] at hj
        omega
      rw [hq]
      simp only [Nat.lt_irrefl, if_false]
      exact ih _ _ hlt hkm
    · have hj0 : qj = 0 := by omega
      have hk1 : ¬ qk = 0 := by omega
      rw [if_pos hj0, if_neg hk1, if_pos (by decide)]

theorem wellFormed_overflowMap : overflowMap.WellFormed := by
  unfold CountMap.WellFormed CountMap.keys overflowMap
  rw [List.map_map, List.pairwise_map]
  refine List.Pairwise.imp_of_mem ?_ (List.pairwise_lt_range (INT_MAX + 1))
  intro j k _ hk hjk
  have hk' : k < INT_MAX + 1 := List.mem_range.1 hk
  exact strLess_binaryKey 31 j k hjk (Nat.lt_of_lt_of_le hk' (by decide))

theorem length_overflowMap : overflowMap.length = INT_MAX + 1 := by
  unfold overflowMap
  rw [List.length_map, List.length_range]

/-- C9: what `printStats` writes for a map `m` and a limit `N`. As long as
`min N |m|` is below `INT_MAX` it writes the first `min N |m|` entries of the
list of the (count, key) pairs of `m` ordered by count descending, equal counts
by ascending key; the map `a:5, b:3, c:3` with the limit 2 gives `a` then `b`.
When the map has `INT_MAX` entries or more and the limit is not smaller, the
`int` line counter overflows after line `INT_MAX` and nothing is defined: the
loop that starts at the line number `INT_MAX - 1` writes its line, the loop that
starts at `INT_MAX` has no defined result. So it is for the well-formed map `overflowMap` of `2^31` entries with the limit
`2^31`, where `min N |m|` is `2^31`. -/
theorem C9_report_line_counter_overflows :
    (∀ (m : CountMap) (N : Nat), m.WellFormed → min N m.length < INT_MAX →
      ∃ l : CountIndex, l.Perm (m.map Prod.swap) ∧ l.Pairwise reportBefore
        ∧ (printStats N m).1 = some (l.take (min N m.length)))
    ∧ (printStats 2 [("a".toList, 5), ("b".toList, 3), ("c".toList, 3)]).1
        = some [(5, "a".toList), (3, "b".toList)]
    ∧ (∀ (m : CountMap) (N : Nat), INT_MAX ≤ m.length → INT_MAX ≤ N →
        (printStats N m).1 = none)
    ∧ printLoop (2 ^ 31) (INT_MAX - 1) [(1, "a".toList)] = some [(1, "a".toList)]
    ∧ printLoop (2 ^ 31) INT_MAX [(1, "a".toList)] = none
    ∧ overflowMap.WellFormed ∧ overflowMap.length = 2 ^ 31
    ∧ min (2 ^ 31) overflowMap.length = 2 ^ 31
    ∧ (printStats (2 ^ 31) overflowMap).1 = none := by
  have hnone : ∀ (m : CountMap) (N : Nat), INT_MAX ≤ m.length → INT_MAX ≤ N →
      (printStats N m).1 = none := by
    intro m N hm hN
    have h1 : 1 ≤ INT_MAX := by decide
    exact printLoop_eq_none N _ 1 h1 hN (by rw [length_revertIndex]; omega)
  have hpow : INT_MAX + 1 = 2 ^ 31 := by decide
  have hlen : overflowMap.length = 2 ^ 31 := by rw [length_overflowMap, hpow]
  refine ⟨?_, by rfl, hnone, by rfl, by rfl, wellFormed_overflowMap, hlen, ?_,
    hnone overflowMap _ (by rw [length_overflowMap]; omega) (by omega)⟩
  · intro m N hm hlt
    have hperm := perm_revertIndexLoop m []
    refine ⟨(revertIndex m).1, by simpa using hperm, ?_, ?_⟩
    · exact pairwise_revertIndexLoop m [] hm List.Pairwise.nil (by simp)
    · have hlen := length_revertIndex m
      show printLoop N 1 (revertIndex m).1 = _
      rw [printLoop_eq_some N _ 1 (by rw [hlen]; omega), Nat.add_sub_cancel, ← hlen,
        take_min_length]
  · rw [hlen]
    exact Nat.min_self _

namespace URLParser

/-- A property of the live automata that every kept automaton gets from one step
holds of all live automata after any number of steps. -/
theorem consumeAll_forall_parsers (P : URLFiniteStateMachine → Prop)
    (hstep : ∀ (m : URLFiniteStateMachine) (c : Char),
      (m = URLFiniteStateMachine.fresh ∨ (m.isLive = true ∧ P m)) →
      (m.advance c).isLive = true → P (m.advance c))
    (w : List Char) (p p' : URLParser)
    (hp : ∀ m ∈ p.parsers, m.isLive = true ∧ P m)
    (h : consumeAll p w = .ok p') : ∀ m ∈ p'.parsers, m.isLive = true ∧ P m := by
  induction w generalizing p with
  | nil =>
    simp only [consumeAll, Except.ok.injEq] at h
    exact h ▸ hp
  | cons ch w ih =>
    unfold consumeAll at h
    cases hp1 : p.consume ch with
    | error e => simp [hp1] at h
    | ok p1 =>
      simp only [hp1] at h
      refine ih p1 ?_ h
      intro m hm
      rw [consumeLoop_parsers ch _ _ _ hp1] at hm
      simp only [List.nil_append, List.mem_filter, List.mem_map, List.mem_append,
        List.mem_singleton] at hm
      obtain ⟨⟨m0, hm0, rfl⟩, hl⟩ := hm
      refine ⟨hl, hstep m0 ch ?_ hl⟩
      rcases hm0 with h0 | h0
      · exact Or.inr (hp m0 h0)
      · exact Or.inl h0

end URLParser

theorem URLFiniteStateMachine.advance_ne_init (m : URLFiniteStateMachine) (c : Char)
    (h : m = URLFiniteStateMachine.fresh ∨ m.isLive = true) :
    (m.advance c).isLive = true → (m.advance c).currentState ≠ State.init := by
  obtain ⟨st, d, q⟩ := m
  rcases h with h | h
  · cases h
    simp only [URLFiniteStateMachine.advance, URLFiniteStateMachine.consume,
      URLFiniteStateMachine.fresh]
    split_ifs <;> simp
  · cases st <;> simp [URLFiniteStateMachine.isLive, URLFiniteStateMachine.isSuccess,
      URLFiniteStateMachine.isError] at h <;>
      simp only [URLFiniteStateMachine.advance, URLFiniteStateMachine.consume,
        URLFiniteStateMachine.addToDomain] <;> split_ifs <;> simp

/-- C11: `consume` of the automaton throws exactly when the automaton is already
in `error` or `success`; in each of the twelve other states it returns the
automaton in its next state, for every character. -/
theorem C11_consume_throws_iff_terminal (m : URLFiniteStateMachine) (ch : Char) :
    ((∃ e, m.consume ch = .error e) ↔ (m.isError = true ∨ m.isSuccess = true))
      ∧ ((∃ m', m.consume ch = .ok m') ↔ m.currentState ∈ nonTerminalStates)
      ∧ nonTerminalStates.length = 12
      ∧ (∀ st : State, st ∈ nonTerminalStates ↔ (st ≠ State.error ∧ st ≠ State.success)) := by
  refine ⟨?_, ?_, rfl, ?_⟩
  · obtain ⟨st, d, q⟩ := m
    cases st <;>
      simp only [URLFiniteStateMachine.consume, URLFiniteStateMachine.isError,
        URLFiniteStateMachine.isSuccess] <;>
      first
        | (split_ifs <;> simp)
        | simp
  · obtain ⟨st, d, q⟩ := m
    cases st <;>
      simp only [URLFiniteStateMachine.consume, nonTerminalStates] <;>
      first
        | (split_ifs <;> simp)
        | simp
  · intro st
    cases st <;> simp [nonTerminalStates]

/-- C12: for every sequence of characters fed to a new scanner no `consume`
raises, the final newline included; every automaton that the next step is
going to advance, the kept ones and the new one, is in a non-terminal state. -/
theorem C12_scanner_never_raises (s : List Char) :
    (∃ p, URLParser.fresh.consumeAll s = .ok p
      ∧ ∀ m ∈ p.parsers ++ [URLFiniteStateMachine.fresh],
          m.isError = false ∧ m.isSuccess = false ∧ ∀ c, ∃ m', m.consume c = .ok m')
      ∧ ∃ p', scan s = .ok p' := by
  obtain ⟨p, hp, hl⟩ := URLParser.consumeAll_isOk s URLParser.fresh (by simp [URLParser.fresh])
  obtain ⟨p', hp', _⟩ := scan_isOk s
  refine ⟨⟨p, hp, ?_⟩, p', hp'⟩
  intro m hm
  have hlive : m.isLive = true := by
    rcases List.mem_append.1 hm with h | h
    · exact hl m h
    · simp only [List.mem_singleton] at h
      subst h
      rfl
  have hl2 := hlive
  simp only [URLFiniteStateMachine.isLive, Bool.and_eq_true, Bool.not_eq_true'] at hl2
  exact ⟨hl2.2, hl2.1, fun c => ⟨_, URLFiniteStateMachine.consume_of_isLive m c hlive⟩⟩

/-- C15: after every completed `consume` step from a new scanner, no automaton
of the live collection is in `error`, in `success` or in `init`. -/
theorem C15_live_automata_are_running (s : List Char) :
    ∃ p, URLParser.fresh.consumeAll s = .ok p
      ∧ ∀ m ∈ p.parsers, m.isError = false ∧ m.isSuccess = false
          ∧ m.currentState ≠ State.init := by
  obtain ⟨p, hp, _⟩ := URLParser.consumeAll_isOk s URLParser.fresh (by simp [URLParser.fresh])
  refine ⟨p, hp, ?_⟩
  intro m hm
  have := URLParser.consumeAll_forall_parsers (fun x => x.currentState ≠ State.init)
    (fun m0 c h0 hl => URLFiniteStateMachine.advance_ne_init m0 c
      (h0.imp id (fun h => h.1)) hl)
    s URLParser.fresh p (by simp [URLParser.fresh]) hp m hm
  obtain ⟨hl, hi⟩ := this
  simp only [URLFiniteStateMachine.isLive, Bool.and_eq_true, Bool.not_eq_true'] at hl
  exact ⟨hl.2, hl.1, hi⟩



namespace CountMap

theorem below_refl (m : CountMap) : Below m m := fun _ v h => ⟨v, h, Nat.le_refl v⟩

theorem below_trans {a b c : CountMap} (hab : Below a b) (hbc : Below b c) : Below a c := by
  intro k v h
  obtain ⟨v1, h1, hle1⟩ := hab k v h
  obtain ⟨v2, h2, hle2⟩ := hbc k v1 h1
  exact ⟨v2, h2, Nat.le_trans hle1 hle2⟩

theorem below_increment (m : CountMap) (k : List Char) : Below m (increment m k) := by
  intro d v h
  rw [find_increment]
  by_cases hk : k = d
  · subst hk
    refine ⟨count m k + 1, by simp, ?_⟩
    simp only [count, h, Option.getD_some]
    omega
  · exact ⟨v, by simp [hk, h], Nat.le_refl v⟩

end CountMap

namespace URLParser

theorem countersBelow_refl (p : URLParser) : CountersBelow p p :=
  ⟨Nat.le_refl _, CountMap.below_refl _, CountMap.below_refl _⟩

theorem countersBelow_trans {a b c : URLParser} (hab : CountersBelow a b)
    (hbc : CountersBelow b c) : CountersBelow a c :=
  ⟨Nat.le_trans hab.1 hbc.1, CountMap.below_trans hab.2.1 hbc.2.1,
    CountMap.below_trans hab.2.2 hbc.2.2⟩

theorem consumeLoop_countersBelow (ch : Char) (ms : List URLFiniteStateMachine)
    (p p' : URLParser) (h : consumeLoop ch ms p = .ok p') : CountersBelow p p' := by
  induction ms generalizing p with
  | nil =>
    simp only [consumeLoop, Except.ok.injEq] at h
    exact h ▸ countersBelow_refl p
  | cons m ms ih =>
    unfold consumeLoop at h
    cases hm : m.consume ch with
    | error e => simp [hm] at h
    | ok m' =>
      simp only [hm] at h
      split_ifs at h
      · exact countersBelow_trans
          ⟨Nat.le_succ _, CountMap.below_increment _ _, CountMap.below_increment _ _⟩ (ih _ h)
      · exact ih _ h
      · have hstep : CountersBelow p { p with parsers := p.parsers ++ [m'] } :=
          ⟨Nat.le_refl _, CountMap.below_refl _, CountMap.below_refl _⟩
        exact countersBelow_trans hstep (ih _ h)

theorem consume_countersBelow (p p' : URLParser) (ch : Char) (h : p.consume ch = .ok p') :
    CountersBelow p p' :=
  have hstep : CountersBelow p { p with parsers := [] } :=
    ⟨Nat.le_refl _, CountMap.below_refl _, CountMap.below_refl _⟩
  countersBelow_trans hstep (consumeLoop_countersBelow ch _ _ p' h)

end URLParser

/-- C13: in every state reached from a new scanner, `consume` of any character
removes no entry and lowers no count: `urlCounter` does not decrease, every key
of `countByDomain` and of `countByPath` is kept with a count at least as large,
and a key that the step creates has a count of 1 or more. -/
theorem C13_counters_never_decrease (s : List Char) (c : Char) :
    ∃ p p', URLParser.fresh.consumeAll s = .ok p ∧ p.consume c = .ok p'
      ∧ p.urlCounter ≤ p'.urlCounter
      ∧ p.countByDomain.Below p'.countByDomain ∧ p.countByPath.Below p'.countByPath
      ∧ (∀ k v, p.countByDomain.find k = none → p'.countByDomain.find k = some v → 1 ≤ v)
      ∧ (∀ k v, p.countByPath.find k = none → p'.countByPath.find k = some v → 1 ≤ v) := by
  obtain ⟨p', hp', _⟩ := URLParser.consumeAll_isOk (s ++ [c]) URLParser.fresh
    (by simp [URLParser.fresh])
  rw [URLParser.consumeAll_append] at hp'
  cases hp : URLParser.fresh.consumeAll s with
  | error e => simp [hp] at hp'
  | ok p =>
    simp only [hp, URLParser.consumeAll] at hp'
    cases hc : p.consume c with
    | error e => simp [hc] at hp'
    | ok p1 =>
      simp only [hc, Except.ok.injEq] at hp'
      subst hp'
      obtain ⟨h1, h2, h3⟩ := URLParser.consume_countersBelow p p1 c hc
      obtain ⟨_, _, h4, h5, _, _⟩ := URLParser.consume_consistent p p1 c hc
        (URLParser.consumeAll_consistent s _ p hp URLParser.consistent_fresh)
      refine ⟨p, p1, rfl, hc, h1, h2, h3, ?_, ?_⟩
      · intro k v _ hv
        exact h4 (k, v) (CountMap.mem_of_find _ k v hv)
      · intro k v _ hv
        exact h5 (k, v) (CountMap.mem_of_find _ k v hv)



theorem isDomainContent_h : isDomainContent 'h' = true := by decide
theorem isDomainContent_t : isDomainContent 't' = true := by decide
theorem isDomainContent_p : isDomainContent 'p' = true := by decide
theorem isDomainContent_s : isDomainContent 's' = true := by decide
theorem isPathContent_h : isPathContent 'h' = true := by decide
theorem isPathContent_t : isPathContent 't' = true := by decide
theorem isPathContent_p : isPathContent 'p' = true := by decide
theorem isPathContent_s : isPathContent 's' = true := by decide
theorem isPathContent_colon : isPathContent ':' = false := by decide

theorem nextState_eq (st : State) (c : Char) :
    nextState st c =
      match st with
      | State.init => if 'h' = c then State.prefix_h else State.error
      | State.prefix_h => if 't' = c then State.prefix_t_1 else State.error
      | State.prefix_t_1 => if 't' = c then State.prefix_t_2 else State.error
      | State.prefix_t_2 => if 'p' = c then State.prefix_p else State.error
      | State.prefix_p =>
        if 's' = c then State.prefix_s else if ':' = c then State.prefix_colon else State.error
      | State.prefix_s => if ':' = c then State.prefix_colon else State.error
      | State.prefix_colon => if '/' = c then State.prefix_slash_1 else State.error
      | State.prefix_slash_1 => if '/' = c then State.prefis_slash_2 else State.error
      | State.prefis_slash_2 =>
        if isDomainContent c = true then State.domain_content else State.error
      | State.domain_content =>
        if isDomainContent c = true then State.domain_content
        else if '/' = c then State.path_slash else State.success
      | State.path_slash => if isPathContent c = true then State.path_content else State.success
      | State.path_content => if isPathContent c = true then State.path_content else State.success
      | State.error => State.error
      | State.success => State.success := by
  cases st <;>
    simp only [nextState, URLFiniteStateMachine.advance, URLFiniteStateMachine.consume,
      URLFiniteStateMachine.addToDomain] <;>
    first
      | rfl
      | (split_ifs <;> rfl)

theorem liveShape_step (c : Char) (sts : List State) (h : liveShape sts = true) :
    liveShape (((sts ++ [State.init]).map (fun st => nextState st c)).filter
      (fun st => !st.isTerminal)) = true := by
  match sts, h with
  | [], _ =>
    simp only [List.nil_append, List.map_cons, List.map_nil, nextState_eq]
    split_ifs <;> decide
  | [a], h =>
    cases a <;> simp [liveShape, State.isSchemePrefix, State.isDomainOrPath] at h <;>
      simp only [List.cons_append, List.nil_append, List.map_cons, List.map_nil, nextState_eq] <;>
      split_ifs <;> first
        | decide
        | (exfalso; subst_vars; simp_all [isDomainContent_h, isPathContent_h])
  | [a, b], h =>
    cases a <;> cases b <;>
      simp [liveShape, State.isBeforeColon, State.isDomainOrPath] at h <;>
      simp only [List.cons_append, List.nil_append, List.map_cons, List.map_nil, nextState_eq] <;>
      split_ifs <;> first
        | decide
        | (exfalso; subst_vars
           simp_all [isDomainContent_h, isPathContent_h, isDomainContent_t, isPathContent_t,
             isDomainContent_p, isPathContent_p, isDomainContent_s, isPathContent_s,
             isDomainContent_colon, isPathContent_colon])
  | _ :: _ :: _ :: _, h => simp [liveShape] at h

namespace URLFiniteStateMachine

theorem currentState_advance (m : URLFiniteStateMachine) (c : Char) :
    (m.advance c).currentState = nextState m.currentState c := by
  obtain ⟨st, d, q⟩ := m
  cases st <;>
    simp only [nextState, advance, consume, addToDomain] <;>
    first
      | rfl
      | (split_ifs <;> rfl)

theorem isLive_eq (m : URLFiniteStateMachine) : m.isLive = !m.currentState.isTerminal := by
  obtain ⟨st, d, q⟩ := m
  cases st <;> rfl

theorem isAcceptable_of_isSuccess_advance (m : URLFiniteStateMachine) (c : Char)
    (hl : m.isLive = true) (h : (m.advance c).isSuccess = true) : m.isAcceptable = true := by
  obtain ⟨st, d, q⟩ := m
  cases st <;> simp [isLive, isSuccess, isError] at hl <;> simp [isAcceptable] <;>
    (revert h
     simp only [advance, consume, isSuccess, addToDomain]
     split_ifs <;> simp)

end URLFiniteStateMachine

theorem states_of_filter_advance (c : Char) (l : List URLFiniteStateMachine) :
    ((l.map (fun m => m.advance c)).filter URLFiniteStateMachine.isLive).map
        (fun m => m.currentState)
      = ((l.map (fun m => m.currentState)).map (fun st => nextState st c)).filter
          (fun st => !st.isTerminal) := by
  induction l with
  | nil => rfl
  | cons m l ih =>
    simp only [List.map_cons, List.filter_cons]
    rw [URLFiniteStateMachine.isLive_eq, URLFiniteStateMachine.currentState_advance]
    by_cases hl : (!(nextState m.currentState c).isTerminal) = true
    · simp only [hl, if_true, List.map_cons, URLFiniteStateMachine.currentState_advance, ih]
    · rw [Bool.not_eq_true] at hl
      simp only [hl, Bool.false_eq_true, if_false]
      exact ih

theorem states_of_step (c : Char) (ms : List URLFiniteStateMachine) :
    (((ms ++ [URLFiniteStateMachine.fresh]).map (fun m => m.advance c)).filter
        URLFiniteStateMachine.isLive).map (fun m => m.currentState)
      = (((ms.map (fun m => m.currentState)) ++ [State.init]).map
          (fun st => nextState st c)).filter (fun st => !st.isTerminal) := by
  rw [states_of_filter_advance]
  simp [URLFiniteStateMachine.fresh]

namespace URLParser

theorem consumeAll_liveShape (w : List Char) (p p' : URLParser)
    (hp : liveShape (p.parsers.map (fun m => m.currentState)) = true)
    (h : consumeAll p w = .ok p') :
    liveShape (p'.parsers.map (fun m => m.currentState)) = true := by
  induction w generalizing p with
  | nil =>
    simp only [consumeAll, Except.ok.injEq] at h
    exact h ▸ hp
  | cons ch w ih =>
    unfold consumeAll at h
    cases hp1 : p.consume ch with
    | error e => simp [hp1] at h
    | ok p1 =>
      simp only [hp1] at h
      refine ih p1 ?_ h
      rw [consumeLoop_parsers ch _ _ _ hp1]
      simp only [List.nil_append]
      rw [states_of_step]
      exact liveShape_step ch _ hp

end URLParser

theorem liveShape_bounds (sts : List State) (h : liveShape sts = true) :
    sts.length ≤ 2 ∧ sts.countP State.isSchemePrefix ≤ 1
      ∧ sts.countP State.isDomainOrPath ≤ 1
      ∧ ∀ st ∈ sts, st.isSchemePrefix = true ∨ st.isDomainOrPath = true := by
  match sts, h with
  | [], _ => simp
  | [a], h =>
    cases a <;> simp [liveShape, State.isSchemePrefix, State.isDomainOrPath] at h <;>
      simp [State.isSchemePrefix, State.isDomainOrPath]
  | [a, b], h =>
    cases a <;> cases b <;>
      simp [liveShape, State.isBeforeColon, State.isDomainOrPath] at h <;>
      simp [State.isSchemePrefix, State.isDomainOrPath]
  | _ :: _ :: _ :: _, h => simp [liveShape] at h

theorem URLFiniteStateMachine.isAcceptable_eq (m : URLFiniteStateMachine) :
    m.isAcceptable = m.currentState.isDomainOrPath := by
  obtain ⟨st, d, q⟩ := m
  cases st <;> rfl

/-- C17: after every completed `consume` step from a new scanner the live
collection holds at most two automata, at most one in a scheme prefix state
(`prefix_h` to `prefis_slash_2`) and at most one in `domain_content`,
`path_slash` or `path_content`; the next step finalizes at most one match. -/
theorem C17_at_most_two_live_automata (s : List Char) (c : Char) :
    ∃ p p', URLParser.fresh.consumeAll s = .ok p ∧ p.consume c = .ok p'
      ∧ p.parsers.length ≤ 2
      ∧ p.parsers.countP (fun m => m.currentState.isSchemePrefix) ≤ 1
      ∧ p.parsers.countP (fun m => m.currentState.isDomainOrPath) ≤ 1
      ∧ (∀ m ∈ p.parsers,
          m.currentState.isSchemePrefix = true ∨ m.currentState.isDomainOrPath = true)
      ∧ p'.urlCounter ≤ p.urlCounter + 1 := by
  obtain ⟨p, hp, hl⟩ := URLParser.consumeAll_isOk s URLParser.fresh (by simp [URLParser.fresh])
  have hall : ∀ m ∈ p.parsers ++ [URLFiniteStateMachine.fresh], m.isLive = true := by
    intro m hm
    rcases List.mem_append.1 hm with h | h
    · exact hl m h
    · simp only [List.mem_singleton] at h
      subst h
      rfl
  obtain ⟨p', hp'⟩ := URLParser.consumeLoop_isOk c _ hall { p with parsers := [] }
  have hshape := URLParser.consumeAll_liveShape s URLParser.fresh p (by rfl) hp
  obtain ⟨h1, h2, h3, h4⟩ := liveShape_bounds _ hshape
  rw [List.length_map] at h1
  rw [List.countP_map] at h2 h3
  refine ⟨p, p', hp, hp', h1, h2, h3, ?_, ?_⟩
  · intro m hm
    exact h4 m.currentState (List.mem_map_of_mem _ hm)
  · rw [URLParser.consumeLoop_urlCounter c _ _ _ hp', List.countP_map]
    have hle : List.countP (URLFiniteStateMachine.isSuccess ∘ fun m => m.advance c)
        (p.parsers ++ [URLFiniteStateMachine.fresh])
        ≤ List.countP (State.isDomainOrPath ∘ fun m => m.currentState)
            (p.parsers ++ [URLFiniteStateMachine.fresh]) := by
      apply List.countP_mono_left
      intro m hm hsucc
      have := URLFiniteStateMachine.isAcceptable_of_isSuccess_advance m c (hall m hm) hsucc
      rw [URLFiniteStateMachine.isAcceptable_eq] at this
      exact this
    have hfresh : List.countP (State.isDomainOrPath ∘ fun m => m.currentState)
        [URLFiniteStateMachine.fresh] = 0 := by decide
    simp only [List.countP_append, hfresh] at hle
    simp only [List.countP_append]
    omega

theorem consumeAll_h_of_prefix_h (n : Nat) :
    URLParser.consumeAll
        { urlCounter := 0, countByDomain := [], countByPath := [],
          parsers := [{ currentState := State.prefix_h, domain := [], path := [] }] }
        (List.replicate n 'h')
      = .ok { urlCounter := 0, countByDomain := [], countByPath := [],
              parsers := [{ currentState := State.prefix_h, domain := [], path := [] }] } := by
  induction n with
  | zero => rfl
  | succ n ih =>
    rw [List.replicate_succ]
    unfold URLParser.consumeAll
    have hstep : URLParser.consume
        { urlCounter := 0, countByDomain := [], countByPath := [],
          parsers := [{ currentState := State.prefix_h, domain := [], path := [] }] } 'h'
        = .ok { urlCounter := 0, countByDomain := [], countByPath := [],
                parsers := [{ currentState := State.prefix_h, domain := [], path := [] }] } := by
      rfl
    simp only [hstep]
    exact ih

/-- C16, as stated, fails: after three `h` characters the live collection holds
one automaton, not three. -/
theorem C16_run_of_h_keeps_one_automaton :
    ¬ ∃ p, URLParser.fresh.consumeAll (List.replicate 3 'h') = .ok p ∧ p.parsers.length = 3 := by
  rintro ⟨p, hp, hlen⟩
  have h : URLParser.fresh.consumeAll (List.replicate 3 'h')
      = .ok { urlCounter := 0, countByDomain := [], countByPath := [],
              parsers := [{ currentState := State.prefix_h, domain := [], path := [] }] } := by
    rfl
  rw [h] at hp
  cases hp
  simp at hlen

/-- C16, amended: a run of `h` characters does not make the live collection
grow. After `n` consecutive `h` characters a new scanner holds no automaton for
`n = 0` and exactly one for every `n ≥ 1`, the automaton created for the last
`h`, in state `prefix_h`; every earlier one went to `error` on the next `h`. -/
theorem C16_run_of_h_live_collection (n : Nat) :
    URLParser.fresh.consumeAll (List.replicate n 'h')
      = .ok { urlCounter := 0, countByDomain := [], countByPath := [],
              parsers := if n = 0 then []
                else [{ currentState := State.prefix_h, domain := [], path := [] }] } := by
  cases n with
  | zero => rfl
  | succ n =>
    rw [List.replicate_succ]
    unfold URLParser.consumeAll
    have hstep : URLParser.fresh.consume 'h'
        = .ok { urlCounter := 0, countByDomain := [], countByPath := [],
                parsers := [{ currentState := State.prefix_h, domain := [], path := [] }] } := by
      rfl
    simp only [hstep]
    rw [consumeAll_h_of_prefix_h]
    simp



theorem isDomainKeyChar_tolower_of_upper (c : Char) (h1 : 'A' ≤ c) (h2 : c ≤ 'Z') :
    isDomainKeyChar (tolower c) = true := by
  have e := Char.ofNat_toNat c
  have l1 : 65 ≤ c.toNat := h1
  have l2 : c.toNat ≤ 90 := h2
  generalize c.toNat = n at e l1 l2
  subst e
  interval_cases n <;> decide

theorem isDomainKeyChar_tolower (c : Char) (h : isDomainContent c = true) :
    isDomainKeyChar (tolower c) = true := by
  by_cases hU : 'A' ≤ c ∧ c ≤ 'Z'
  · exact isDomainKeyChar_tolower_of_upper c hU.1 hU.2
  · simp only [tolower, hU, if_false]
    simp only [isDomainContent, isAlpha, isNumeric, isDomainKeyChar, Bool.or_eq_true,
      Bool.and_eq_true, decide_eq_true_eq, beq_iff_eq] at h ⊢
    rcases h with ((h | h) | h) | h
    · rcases h with h | h
      · exact Or.inl (Or.inl (Or.inl h))
      · exact absurd h hU
    · exact Or.inl (Or.inl (Or.inr h))
    · exact Or.inl (Or.inr h.symm)
    · exact Or.inr h.symm

theorem isPathKeyChar_of_isPathContent (c : Char) (h : isPathContent c = true) :
    isPathKeyChar c = true := by
  simp only [isPathContent, isAlpha, isNumeric, isPathKeyChar, Bool.or_eq_true,
    Bool.and_eq_true, decide_eq_true_eq, beq_iff_eq] at h ⊢
  rcases h with (((((h | h) | h) | h) | h) | h) | h
  · rcases h with h | h
    · exact Or.inl (Or.inl (Or.inl (Or.inl (Or.inl (Or.inl (Or.inl h))))))
    · exact Or.inl (Or.inl (Or.inl (Or.inl (Or.inl (Or.inl (Or.inr h))))))
  · exact Or.inl (Or.inl (Or.inl (Or.inl (Or.inl (Or.inr h)))))
  · exact Or.inl (Or.inl (Or.inl (Or.inl (Or.inr h.symm))))
  · exact Or.inl (Or.inl (Or.inl (Or.inr h.symm)))
  · exact Or.inl (Or.inl (Or.inr h.symm))
  · exact Or.inl (Or.inr h.symm)
  · exact Or.inr h.symm

theorem isDomainKey_append (k : List Char) (x : Char)
    (hk : k.isEmpty = true ∨ isDomainKey k = true) (hx : isDomainKeyChar x = true) :
    isDomainKey (k ++ [x]) = true := by
  have hall : k.all isDomainKeyChar = true := by
    rcases hk with h | h
    · cases k with
      | nil => rfl
      | cons a k => simp at h
    · simp only [isDomainKey, Bool.and_eq_true] at h
      exact h.2
  simp only [isDomainKey, Bool.and_eq_true, List.all_append, hall, List.all_cons, hx,
    List.all_nil, Bool.and_self, and_true]
  cases k <;> rfl

theorem isPathKey_slash : isPathKey ['/'] = true := by decide

theorem isPathKey_append (k : List Char) (x : Char)
    (hk : isPathKey k = true) (hx : isPathKeyChar x = true) : isPathKey (k ++ [x]) = true := by
  simp only [isPathKey, Bool.and_eq_true] at hk ⊢
  cases k with
  | nil => simp at hk
  | cons a k =>
    refine ⟨by simpa using hk.1, ?_⟩
    simp only [List.all_append, hk.2, List.all_cons, hx, List.all_nil, Bool.and_self]

namespace URLFiniteStateMachine

theorem buffersOk_advance (m : URLFiniteStateMachine) (c : Char) (h : m.isLive = true)
    (hb : m.buffersOk = true) : (m.advance c).buffersOk = true := by
  obtain ⟨st, d, q⟩ := m
  cases st <;> simp [isLive, isSuccess, isError] at h <;>
    simp only [buffersOk, Bool.and_eq_true] at hb <;>
    simp only [advance, consume, addToDomain] <;>
    split_ifs <;>
    simp only [buffersOk, Bool.and_eq_true] <;>
    first
      | exact hb
      | exact ⟨isDomainKey_append d _ (Or.inl hb.1) (isDomainKeyChar_tolower c ‹_›), hb.2⟩
      | exact ⟨isDomainKey_append d _ (Or.inr hb.1) (isDomainKeyChar_tolower c ‹_›), hb.2⟩
      | exact ⟨hb.1, isPathKey_append q c hb.2 (isPathKeyChar_of_isPathContent c ‹_›)⟩
      | (have hq : q = [] := List.isEmpty_iff.1 hb.2
         subst hq
         first
           | exact ⟨hb.1, isPathKey_slash⟩
           | (subst_vars; exact ⟨hb.1, isPathKey_slash⟩))

end URLFiniteStateMachine

theorem CountMap.mem_keys_increment (m : CountMap) (k y : List Char)
    (h : y ∈ CountMap.keys (CountMap.increment m k)) : y = k ∨ y ∈ CountMap.keys m := by
  unfold CountMap.increment at h
  rw [CountMap.keys_addAt] at h
  unfold CountMap.subscript at h
  cases hf : CountMap.find m k with
  | some v =>
    rw [hf] at h
    exact Or.inr h
  | none =>
    rw [hf] at h
    exact (CountMap.mem_keys_insertSorted k 0 m y).1 h

namespace URLParser

theorem consumeLoop_keysOk (ch : Char) (ms : List URLFiniteStateMachine) (p p' : URLParser)
    (hms : ∀ m ∈ ms, m.isLive = true ∧ m.buffersOk = true)
    (hp : KeysOk p) (h : consumeLoop ch ms p = .ok p') : KeysOk p' := by
  induction ms generalizing p with
  | nil =>
    simp only [consumeLoop, Except.ok.injEq] at h
    exact h ▸ hp
  | cons m ms ih =>
    have hm0 := hms m (List.mem_cons_self _ _)
    have hrest : ∀ x ∈ ms, x.isLive = true ∧ x.buffersOk = true :=
      fun x hx => hms x (List.mem_cons_of_mem _ hx)
    have hb := URLFiniteStateMachine.buffersOk_advance m ch hm0.1 hm0.2
    unfold consumeLoop at h
    rw [URLFiniteStateMachine.consume_of_isLive m ch hm0.1] at h
    simp only at h
    split_ifs at h with hs he
    · refine ih _ hrest ?_ h
      have hst : (m.advance ch).currentState = State.success := by
        simp only [URLFiniteStateMachine.isSuccess, decide_eq_true_eq] at hs
        exact hs.symm
      simp only [URLFiniteStateMachine.buffersOk, hst, Bool.and_eq_true] at hb
      constructor
      · intro k hk
        rcases CountMap.mem_keys_increment _ _ _ hk with rfl | hk
        · exact hb.1
        · exact hp.1 k hk
      · intro k hk
        rcases CountMap.mem_keys_increment _ _ _ hk with rfl | hk
        · exact hb.2
        · exact hp.2 k hk
    · exact ih _ hrest hp h
    · exact ih { p with parsers := p.parsers ++ [m.advance ch] } hrest hp h

theorem consumeAll_keysOk (w : List Char) (p p' : URLParser)
    (hps : ∀ m ∈ p.parsers, m.isLive = true ∧ m.buffersOk = true)
    (hp : KeysOk p) (h : consumeAll p w = .ok p') : KeysOk p' := by
  induction w generalizing p with
  | nil =>
    simp only [consumeAll, Except.ok.injEq] at h
    exact h ▸ hp
  | cons ch w ih =>
    unfold consumeAll at h
    cases hp1 : p.consume ch with
    | error e => simp [hp1] at h
    | ok p1 =>
      simp only [hp1] at h
      have hall : ∀ m ∈ p.parsers ++ [URLFiniteStateMachine.fresh],
          m.isLive = true ∧ m.buffersOk = true := by
        intro m hm
        rcases List.mem_append.1 hm with h0 | h0
        · exact hps m h0
        · simp only [List.mem_singleton] at h0
          subst h0
          exact ⟨rfl, rfl⟩
      refine ih p1 ?_ (consumeLoop_keysOk ch _ { p with parsers := [] } p1 hall hp hp1) h
      intro m hm
      rw [consumeLoop_parsers ch _ _ _ hp1] at hm
      simp only [List.nil_append, List.mem_filter, List.mem_map] at hm
      obtain ⟨⟨m0, hm0, rfl⟩, hl⟩ := hm
      exact ⟨hl, URLFiniteStateMachine.buffersOk_advance m0 ch (hall m0 hm0).1 (hall m0 hm0).2⟩

end URLParser

/-- C18: in every state reached from a new scanner, every key of `countByDomain`
is non-empty and made of ASCII lowercase letters, digits, `.` and `-`, and every
key of `countByPath` begins with `/` and is made of path characters (ASCII
letters, digits, `.`, `,`, `/`, `+`, `_`). -/
theorem C18_shape_of_the_keys (s : List Char) :
    ∃ p, URLParser.fresh.consumeAll s = .ok p
      ∧ (∀ k ∈ p.countByDomain.keys, k ≠ [] ∧ ∀ c ∈ k, isDomainKeyChar c = true)
      ∧ (∀ k ∈ p.countByPath.keys, k.head? = some '/' ∧ ∀ c ∈ k, isPathKeyChar c = true) := by
  obtain ⟨p, hp, _⟩ := URLParser.consumeAll_isOk s URLParser.fresh (by simp [URLParser.fresh])
  have hk := URLParser.consumeAll_keysOk s URLParser.fresh p (by simp [URLParser.fresh])
    ⟨by simp [URLParser.fresh, CountMap.keys], by simp [URLParser.fresh, CountMap.keys]⟩ hp
  refine ⟨p, hp, ?_, ?_⟩
  · intro k hmem
    have := hk.1 k hmem
    simp only [isDomainKey, Bool.and_eq_true, Bool.not_eq_true', List.all_eq_true] at this
    exact ⟨fun h => by simp [h] at this, this.2⟩
  · intro k hmem
    have := hk.2 k hmem
    simp only [isPathKey, Bool.and_eq_true, beq_iff_eq, List.all_eq_true] at this
    exact this



namespace URLFiniteStateMachine

theorem feed_cons_of_isLive (m : URLFiniteStateMachine) (c : Char) (r : List Char)
    (h : m.isLive = true) : feed m (c :: r) = feed (m.advance c) r := by
  simp only [feed, consume_of_isLive m c h]

theorem consume_error_of_not_isLive (m : URLFiniteStateMachine) (c : Char)
    (h : m.isLive = false) : ∃ e, m.consume c = .error e := by
  obtain ⟨st, d, q⟩ := m
  cases st <;> simp [isLive, isSuccess, isError] at h <;> exact ⟨_, rfl⟩

theorem feed_cons_of_not_isLive (m : URLFiniteStateMachine) (c : Char) (r : List Char)
    (h : m.isLive = false) : ∃ e, feed m (c :: r) = .error e := by
  obtain ⟨e, he⟩ := consume_error_of_not_isLive m c h
  exact ⟨e, by simp only [feed, he]⟩

theorem stillRunning_feed_of_not_isLive (m : URLFiniteStateMachine) (w : List Char)
    (h : m.isLive = false) : stillRunning (feed m w) = none := by
  cases w with
  | nil => simp [feed, stillRunning, h]
  | cons c r =>
    obtain ⟨e, he⟩ := feed_cons_of_not_isLive m c r h
    rw [he]
    rfl

theorem stillRunning_feed_cons (m : URLFiniteStateMachine) (c : Char) (w : List Char)
    (h : m.isLive = true) :
    stillRunning (feed m (c :: w)) =
      if (m.advance c).isLive = true then stillRunning (feed (m.advance c) w) else none := by
  rw [feed_cons_of_isLive m c w h]
  by_cases hl : (m.advance c).isLive = true
  · simp only [hl, if_true]
  · simp only [hl, if_false]
    exact stillRunning_feed_of_not_isLive _ w (by simpa using hl)

end URLFiniteStateMachine

theorem filterMap_stillRunning_step (c : Char) (w : List Char)
    (ms : List URLFiniteStateMachine) (hms : ∀ m ∈ ms, m.isLive = true) :
    ((ms.map (fun m => m.advance c)).filter URLFiniteStateMachine.isLive).filterMap
        (fun m => stillRunning (m.feed w))
      = ms.filterMap (fun m => stillRunning (m.feed (c :: w))) := by
  induction ms with
  | nil => rfl
  | cons m ms ih =>
    have hm := hms m (List.mem_cons_self _ _)
    have ih' := ih (fun x hx => hms x (List.mem_cons_of_mem _ hx))
    simp only [List.map_cons, List.filter_cons, List.filterMap_cons,
      URLFiniteStateMachine.stillRunning_feed_cons m c w hm]
    by_cases hl : (m.advance c).isLive = true
    · simp only [hl, if_true, List.filterMap_cons, ih']
    · rw [Bool.not_eq_true] at hl
      simp only [hl, Bool.false_eq_true, if_false]
      exact ih'

theorem filterMap_stillRunning_nil (ms : List URLFiniteStateMachine)
    (hms : ∀ m ∈ ms, m.isLive = true) :
    ms.filterMap (fun m => stillRunning (m.feed [])) = ms := by
  induction ms with
  | nil => rfl
  | cons m ms ih =>
    have hm := hms m (List.mem_cons_self _ _)
    rw [List.filterMap_cons, ih (fun x hx => hms x (List.mem_cons_of_mem _ hx))]
    simp only [URLFiniteStateMachine.feed, stillRunning, hm, if_true]

theorem filterMap_offsets {α : Type} (f : List Char → Option α) (c : Char) (w : List Char) :
    (List.range (c :: w).length).filterMap (fun j => f ((c :: w).drop j))
      = (f (c :: w)).toList ++ (List.range w.length).filterMap (fun j => f (w.drop j)) := by
  rw [List.length_cons, List.range_succ_eq_map, List.filterMap_cons, List.filterMap_map]
  simp only [List.drop_zero, Function.comp_def, List.drop_succ_cons]
  cases f (c :: w) <;> rfl

namespace URLParser

theorem consumeAll_parsers_eq (w : List Char) (p p' : URLParser)
    (hp : ∀ m ∈ p.parsers, m.isLive = true) (h : consumeAll p w = .ok p') :
    p'.parsers = p.parsers.filterMap (fun m => stillRunning (m.feed w))
      ++ (List.range w.length).filterMap
          (fun j => stillRunning (URLFiniteStateMachine.fresh.feed (w.drop j))) := by
  induction w generalizing p with
  | nil =>
    simp only [consumeAll, Except.ok.injEq] at h
    subst h
    simp only [List.length_nil, List.range_zero, List.filterMap_nil, List.append_nil]
    exact (filterMap_stillRunning_nil p.parsers hp).symm
  | cons ch w ih =>
    unfold consumeAll at h
    cases hp1 : p.consume ch with
    | error e => simp [hp1] at h
    | ok p1 =>
      simp only [hp1] at h
      have hall : ∀ m ∈ p.parsers ++ [URLFiniteStateMachine.fresh], m.isLive = true := by
        intro m hm
        rcases List.mem_append.1 hm with h0 | h0
        · exact hp m h0
        · simp only [List.mem_singleton] at h0
          subst h0
          rfl
      have hps := consumeLoop_parsers ch _ _ _ hp1
      simp only [List.nil_append] at hps
      have hl1 : ∀ m ∈ p1.parsers, m.isLive = true := by
        intro m hm
        rw [hps] at hm
        exact (List.mem_filter.1 hm).2
      rw [ih p1 hl1 h, hps, filterMap_stillRunning_step ch w _ hall,
        filterMap_offsets (fun t => stillRunning (URLFiniteStateMachine.fresh.feed t)) ch w,
        List.filterMap_append]
      simp only [List.filterMap_cons, List.filterMap_nil, List.append_assoc]
      cases stillRunning (URLFiniteStateMachine.fresh.feed (ch :: w)) <;> rfl

end URLParser

theorem findSome_congr {α β : Type} (f g : α → Option β) (l : List α)
    (h : ∀ x ∈ l, f x = g x) : l.findSome? f = l.findSome? g := by
  induction l with
  | nil => rfl
  | cons a l ih =>
    rw [List.findSome?_cons, List.findSome?_cons, h a (List.mem_cons_self _ _),
      ih (fun x hx => h x (List.mem_cons_of_mem _ hx))]

namespace URLFiniteStateMachine

theorem succeeded_feed_of_not_isLive (m : URLFiniteStateMachine) (c : Char) (r : List Char)
    (h : m.isLive = false) : succeeded (feed m (c :: r)) = none := by
  obtain ⟨e, he⟩ := feed_cons_of_not_isLive m c r h
  rw [he]
  rfl

/-- The match that an automaton reports on `u` is the match of the first prefix
of `u` after which it is in `success`. -/
theorem outcome_eq_findSome (u : List Char) (m : URLFiniteStateMachine)
    (h : m.isLive = true) :
    outcome m u = (List.range u.length).findSome?
      (fun n => succeeded (feed m (u.take (n + 1)))) := by
  induction u generalizing m with
  | nil => rfl
  | cons c u ih =>
    rw [List.length_cons, List.range_succ_eq_map, List.findSome?_cons, List.findSome?_map]
    have hfeed0 : feed m ((c :: u).take (0 + 1)) = .ok (m.advance c) := by
      show feed m [c] = .ok (m.advance c)
      rw [feed_cons_of_isLive m c [] h]
      rfl
    have hcongr : ∀ n ∈ List.range u.length,
        ((fun n => succeeded (feed m ((c :: u).take (n + 1)))) ∘ Nat.succ) n
          = succeeded (feed (m.advance c) (u.take (n + 1))) := by
      intro n _
      show succeeded (feed m (c :: u.take (n + 1))) = _
      rw [feed_cons_of_isLive m c _ h]
    rw [hfeed0, findSome_congr _ _ _ hcongr]
    simp only [succeeded]
    unfold outcome
    by_cases hs : (m.advance c).isSuccess = true
    · rw [if_pos hs, if_pos hs]
    · rw [if_neg hs, if_neg hs]
      by_cases he : (m.advance c).isError = true
      · rw [if_pos he]
        symm
        show List.findSome? _ _ = none
        rw [List.findSome?_eq_none_iff]
        intro n hn
        have hnl : (m.advance c).isLive = false := by simp [isLive, he]
        cases u with
        | nil => simp at hn
        | cons a u' =>
          rw [List.take_succ_cons]
          exact succeeded_feed_of_not_isLive _ a _ hnl
      · rw [if_neg he]
        exact ih (m.advance c) (by simp [isLive, hs, he])

end URLFiniteStateMachine

theorem length_take_succ (s : List Char) (i : Nat) (hi : i < s.length) :
    (s.take (i + 1)).length = i + 1 := by
  rw [List.length_take]
  omega

theorem outcome_eq_independentMatch (s : List Char) (i j : Nat) (hi : i < s.length) :
    URLFiniteStateMachine.outcome URLFiniteStateMachine.fresh ((s.take (i + 1)).drop j)
      = independentMatch s j i := by
  rw [URLFiniteStateMachine.outcome_eq_findSome _ URLFiniteStateMachine.fresh rfl,
    List.length_drop,
    length_take_succ s i hi]
  unfold independentMatch
  rw [List.range'_eq_map_range, List.findSome?_map]
  apply findSome_congr
  intro n hn
  have hn' : n < i + 1 - j := List.mem_range.1 hn
  show succeeded (URLFiniteStateMachine.fresh.feed (((s.take (i + 1)).drop j).take (n + 1)))
    = succeeded (independentRun s j (j + n))
  unfold independentRun segment
  rw [List.take_drop, List.take_take, Nat.min_eq_left (by omega)]
  rfl

/-- C14: the scanner is the parallel run of one independent automaton per start
offset. After it has consumed `s[0..i]`, its live collection is the list, by
increasing start offset `j ≤ i`, of the automata obtained by feeding `s[j..i]`
to a new automaton that are still in a non-terminal state, and its three
counters are the tallies of the matches of the start offsets whose independent
run reached `success` at a position `≤ i`. -/
theorem C14_scanner_refines_independent_runs (s : List Char) (i : Nat) (hi : i < s.length) :
    ∃ p, URLParser.fresh.consumeAll (s.take (i + 1)) = .ok p
      ∧ p.parsers = independentLive s i
      ∧ p.urlCounter = independentTotal s i
      ∧ (∀ d, p.countByDomain.find d = expectedEntry (independentDomainCount s i d))
      ∧ (∀ q, p.countByPath.find q = expectedEntry (independentPathCount s i q)) := by
  obtain ⟨p, hp, _⟩ := URLParser.consumeAll_isOk (s.take (i + 1)) URLParser.fresh
    (by simp [URLParser.fresh])
  obtain ⟨_, _, h3, h4, _, _⟩ :=
    URLParser.consumeAll_consistent _ _ p hp URLParser.consistent_fresh
  have hlen := length_take_succ s i hi
  have htally : ∀ (base : URLParser → Nat) (g : List Char × List Char → Bool),
      (∀ (p : URLParser) (d q : List Char),
        base { p with
          urlCounter := p.urlCounter + 1
          countByDomain := p.countByDomain.increment d
          countByPath := p.countByPath.increment q } = base p + (if g (d, q) then 1 else 0)) →
      (∀ (p : URLParser) (ps : List URLFiniteStateMachine),
        base { p with parsers := ps } = base p) →
      base p = base URLParser.fresh + (List.range (i + 1)).countP
        (fun j => match independentMatch s j i with
          | some r => g r
          | none => false) := by
    intro base g hrec hpar
    have := URLParser.consumeAll_tally base g hrec hpar _ _ _ hp
    rw [this, hlen]
    simp only [URLParser.fresh, List.countP_nil, Nat.add_zero]
    congr 1
    apply List.countP_congr
    intro j _
    simp only [reports, outcome_eq_independentMatch s i j hi]
  refine ⟨p, hp, ?_, ?_, ?_, ?_⟩
  · rw [URLParser.consumeAll_parsers_eq _ _ _ (by simp [URLParser.fresh]) hp, hlen]
    rfl
  · have := htally (fun x => x.urlCounter) (fun _ => true) (fun _ _ _ => by simp)
      (fun _ _ => rfl)
    beta_reduce at this
    rw [this]
    simp only [URLParser.fresh, Nat.zero_add, independentTotal]
    apply List.countP_congr
    intro j _
    cases independentMatch s j i <;> simp
  · intro d
    have := htally (fun x => x.countByDomain.count d) (fun r => decide (r.1 = d))
      (fun p' d' q' => by simp [CountMap.count_increment]) (fun _ _ => rfl)
    beta_reduce at this
    rw [CountMap.find_eq_expectedEntry _ h3, this]
    simp only [URLParser.fresh, CountMap.count, CountMap.find, Option.getD_none, Nat.zero_add,
      independentDomainCount]
    congr 1
    apply List.countP_congr
    intro j _
    cases independentMatch s j i <;> simp
  · intro q
    have := htally (fun x => x.countByPath.count q) (fun r => decide (r.2 = q))
      (fun p' d' q' => by simp [CountMap.count_increment]) (fun _ _ => rfl)
    beta_reduce at this
    rw [CountMap.find_eq_expectedEntry _ h4, this]
    simp only [URLParser.fresh, CountMap.count, CountMap.find, Option.getD_none, Nat.zero_add,
      independentPathCount]
    congr 1
    apply List.countP_congr
    intro j _
    cases independentMatch s j i <;> simp

/-- The scanner after the first 14 characters of `xhttp://a.b/c http://d`. -/
theorem C14_scanner_refines_independent_runs_witness :
    13 < "xhttp://a.b/c http://d".toList.length
      ∧ ∃ p, URLParser.fresh.consumeAll ("xhttp://a.b/c http://d".toList.take (13 + 1)) = .ok p
          ∧ p.parsers = independentLive "xhttp://a.b/c http://d".toList 13
          ∧ p.urlCounter = independentTotal "xhttp://a.b/c http://d".toList 13
          ∧ (∀ d, p.countByDomain.find d
              = expectedEntry (independentDomainCount "xhttp://a.b/c http://d".toList 13 d))
          ∧ (∀ q, p.countByPath.find q
              = expectedEntry (independentPathCount "xhttp://a.b/c http://d".toList 13 q)) :=
  ⟨by decide, C14_scanner_refines_independent_runs "xhttp://a.b/c http://d".toList 13 (by decide)⟩

end UrlCounter
